import Mathlib

/-!
Verification of the `hashvec` crate (`src/lib.rs`): a `HashVec<K, V>` stores
entries in a `Vec<(K, V)>` together with an order map
`HashMap<u64, usize>` from a key's hash digest to the entry's position.

The embedding is parameterized by an arbitrary digest function
`hash : K → Nat`, standing for `calculate_hash` (a `DefaultHasher` digest in
the source); the Rust `Hash` contract only guarantees that equal keys have
equal digests, so any such function is a legal instantiation.
`HashMap<u64, usize>` is modelled by an association list with
replace-on-insert semantics (`alInsert`), first-match lookup (`alGet`) and
erase (`alRemove`); the number of records is the list length.
-/

namespace HashVecSpec

/-- Lookup in the order map: `HashMap::get`. -/
def alGet : List (Nat × Nat) → Nat → Option Nat
  | [], _ => none
  | (k, v) :: t, h => if k = h then some v else alGet t h

/-- Insert into the order map, replacing the record for the key if present:
`HashMap::insert`. -/
def alInsert : List (Nat × Nat) → Nat → Nat → List (Nat × Nat)
  | [], h, v => [(h, v)]
  | (k, x) :: t, h, v => if k = h then (h, v) :: t else (k, x) :: alInsert t h v

/-- Remove the record for a key from the order map: `HashMap::remove`. -/
def alRemove : List (Nat × Nat) → Nat → List (Nat × Nat)
  | [], _ => []
  | (k, x) :: t, h => if k = h then t else (k, x) :: alRemove t h

/-- The keys of the order map's records. -/
def alKeys (o : List (Nat × Nat)) : List Nat := o.map Prod.fst

/-- `self.entries[index].1 = v`: overwrite the value at a position, keeping
the key. Rust panics out of bounds; that branch returns the list unchanged
and is unreachable under the container invariant. -/
def setVal {K V : Type} (l : List (K × V)) (i : Nat) (v : V) : List (K × V) :=
  match l.get? i with
  | some e => l.set i (e.1, v)
  | none => l

/-- `self.entries[index].0 = new_key`: overwrite the key at a position,
keeping the value. Rust panics out of bounds; unreachable under the
invariant. -/
def setKey {K V : Type} (l : List (K × V)) (i : Nat) (k : K) : List (K × V) :=
  match l.get? i with
  | some e => l.set i (k, e.2)
  | none => l

/-- `Vec::swap`: exchange the elements at two positions. Rust panics out of
bounds; that branch returns the list unchanged and is unreachable under the
guards in the source. -/
def swapList {α : Type} (l : List α) (i j : Nat) : List α :=
  match l.get? i, l.get? j with
  | some a, some b => (l.set i b).set j a
  | _, _ => l

/-- The `HashVec<K, V>` container: `entries: Vec<(K, V)>` and
`order: HashMap<u64, usize>` from key digest to position. -/
structure HashVec (K V : Type) where
  entries : List (K × V)
  order : List (Nat × Nat)
  deriving Repr, DecidableEq

namespace HashVec

variable {K V : Type} (hash : K → Nat)

/-- `HashVec::new`. -/
def new : HashVec K V := ⟨[], []⟩

/-- `HashVec::with_capacity`: capacity is a memory-layout concern with no
observable effect on contents, so it constructs the same empty state. -/
def with_capacity (_capacity : Nat) : HashVec K V := ⟨[], []⟩

/-- `HashVec::len`. -/
def len (hv : HashVec K V) : Nat := hv.entries.length

/-- `HashVec::is_empty`. -/
def is_empty (hv : HashVec K V) : Bool := hv.entries.isEmpty

/-- `HashVec::clear`. -/
def clear (_hv : HashVec K V) : HashVec K V := ⟨[], []⟩

/-- `HashVec::insert`. -/
def insert (hv : HashVec K V) (k : K) (v : V) : HashVec K V :=
  match alGet hv.order (hash k) with
  | some i => { hv with entries := setVal hv.entries i v }
  | none =>
      { entries := hv.entries ++ [(k, v)],
        order := alInsert hv.order (hash k) hv.entries.length }

/-- `HashVec::contains_key`. -/
def contains_key (hv : HashVec K V) (k : K) : Bool :=
  (alGet hv.order (hash k)).isSome

/-- `HashVec::get`. `self.entries[*index].1` panics when the recorded
position is out of bounds; that branch yields `none` and is unreachable
under the invariant. -/
def get (hv : HashVec K V) (k : K) : Option V :=
  match alGet hv.order (hash k) with
  | some i => (hv.entries.get? i).map Prod.snd
  | none => none

/-- `HashVec::index` (key to position). -/
def index (hv : HashVec K V) (k : K) : Option Nat :=
  alGet hv.order (hash k)

/-- The loop in `remove_entry`: for each remaining entry at position
`i >= start`, rewrite its order record to `i`. The counter argument is the
running value of `i`. -/
def reindexAux (start : Nat) :
    List (Nat × Nat) → List (K × V) → Nat → List (Nat × Nat)
  | o, [], _ => o
  | o, e :: t, i =>
      reindexAux start (if start ≤ i then alInsert o (hash e.1) i else o) t (i + 1)

/-- `HashVec::remove_entry`. `Vec::remove` panics when the recorded position
is out of bounds; that branch returns the container unchanged and is
unreachable under the invariant. -/
def remove_entry (hv : HashVec K V) (k : K) : Option (K × V) × HashVec K V :=
  let key_hash := hash k
  match alGet hv.order key_hash with
  | some i =>
      match hv.entries.get? i with
      | some value =>
          let entries' := hv.entries.eraseIdx i
          (some value, ⟨entries', reindexAux hash i (alRemove hv.order key_hash) entries' 0⟩)
      | none => (none, hv)
  | none => (none, hv)

/-- `HashVec::remove`. -/
def remove (hv : HashVec K V) (k : K) : Option V × HashVec K V :=
  match remove_entry hash hv k with
  | (some (_, v), hv') => (some v, hv')
  | (none, hv') => (none, hv')

/-- `HashVec::push`. -/
def push (hv : HashVec K V) (entry : K × V) : HashVec K V :=
  let hv1 := if contains_key hash hv entry.1 then (remove hash hv entry.1).2 else hv
  let key_hash := hash entry.1
  { entries := hv1.entries ++ [entry],
    order := alInsert hv1.order key_hash hv1.entries.length }

/-- `HashVec::pop`. -/
def pop (hv : HashVec K V) : Option (K × V) × HashVec K V :=
  match hv.entries.getLast? with
  | some entry =>
      (some entry, ⟨hv.entries.dropLast, alRemove hv.order (hash entry.1)⟩)
  | none => (none, hv)

/-- `HashVec::swap_keys`. The two `unwrap`s are guarded by `op_valid`, so
the match on both lookups is exactly the source's control flow. -/
def swap_keys (hv : HashVec K V) (key_a key_b : K) : HashVec K V :=
  let key_hash_a := hash key_a
  let key_hash_b := hash key_b
  match alGet hv.order key_hash_a, alGet hv.order key_hash_b with
  | some old_index_a, some old_index_b =>
      { entries := swapList hv.entries old_index_a old_index_b,
        order := alInsert (alInsert hv.order key_hash_a old_index_b) key_hash_b old_index_a }
  | _, _ => hv

/-- `HashVec::swap_indices`. The guard `index_a.max(index_b) < self.len()`
keeps both positional reads in bounds; the `unwrap`s on the order lookups
panic when a looked-up digest is untracked, a branch (modelled as the
unchanged container) unreachable under the invariant. -/
def swap_indices (hv : HashVec K V) (index_a index_b : Nat) : HashVec K V :=
  if max index_a index_b < hv.entries.length then
    match hv.entries.get? index_a, hv.entries.get? index_b with
    | some ea, some eb =>
        let key_hash_a := hash ea.1
        let key_hash_b := hash eb.1
        match alGet hv.order key_hash_a, alGet hv.order key_hash_b with
        | some old_index_a, some old_index_b =>
            { entries := swapList hv.entries old_index_a old_index_b,
              order := alInsert (alInsert hv.order key_hash_a old_index_b) key_hash_b old_index_a }
        | _, _ => hv
    | _, _ => hv
  else hv

/-- `HashVec::rename`. -/
def rename (hv : HashVec K V) (old_key : K) (new_key : K) : Option V × HashVec K V :=
  let old_key_hash := hash old_key
  match alGet hv.order old_key_hash with
  | some i =>
      let new_key_hash := hash new_key
      let entries' := setKey hv.entries i new_key
      let order' := alInsert (alRemove hv.order old_key_hash) new_key_hash i
      ((entries'.get? i).map Prod.snd, ⟨entries', order'⟩)
  | none => (none, hv)

/-- `Index<usize> for HashVec`: `&self.entries[i]`. The out-of-bounds panic
is modelled as `none`. -/
def atIdx (hv : HashVec K V) (i : Nat) : Option (K × V) :=
  hv.entries.get? i

end HashVec

/-- The state of `HashVecIter`: a borrow of the container and a cursor. -/
structure HashVecIter (K V : Type) where
  ordered_map : HashVec K V
  index : Nat

namespace HashVecIter

variable {K V : Type}

/-- `Iterator::next for HashVecIter`: read `entries.get(self.index)`, bump
the cursor. The container is untouched. -/
def next (it : HashVecIter K V) : Option (K × V) × HashVecIter K V :=
  (it.ordered_map.entries.get? it.index, ⟨it.ordered_map, it.index + 1⟩)

/-- `IntoIterator for &HashVec`. -/
def intoIter (hv : HashVec K V) : HashVecIter K V := ⟨hv, 0⟩

/-- Drain the iterator: the list of items `next` yields until it returns
`none`. -/
def drain (it : HashVecIter K V) : List (K × V) :=
  match h : it.ordered_map.entries.get? it.index with
  | some e => e :: drain ⟨it.ordered_map, it.index + 1⟩
  | none => []
termination_by it.ordered_map.entries.length - it.index
decreasing_by
  simp
  have hlt : it.index < it.ordered_map.entries.length := by
    by_contra hge
    rw [List.get?_eq_none.mpr (Nat.le_of_not_lt hge)] at h
    exact Option.noConfusion h
  omega

end HashVecIter

/-- The digests of the entries, in sequence order. -/
def entryHashes {K V : Type} (hash : K → Nat) (l : List (K × V)) : List Nat :=
  l.map (fun e => hash e.1)

/-- Coherence of the two substructures: the order map has no duplicate
records, the entries' digests are pairwise distinct, the order map holds
exactly one record per entry, and the record for the digest of the entry at
position `i` is `i`. -/
def WF {K V : Type} (hash : K → Nat) (hv : HashVec K V) : Prop :=
  (alKeys hv.order).Nodup ∧
  (entryHashes hash hv.entries).Nodup ∧
  hv.order.length = hv.entries.length ∧
  ∀ i, (hi : i < hv.entries.length) →
    alGet hv.order (hash (hv.entries[i]).1) = some i

/-- The public mutating operations named by the invariant claim. -/
inductive Op (K V : Type) where
  | insert (k : K) (v : V)
  | push (k : K) (v : V)
  | pop
  | remove (k : K)
  | remove_entry (k : K)
  | rename (old_key new_key : K)
  | swap_keys (a b : K)
  | swap_indices (i j : Nat)
  | clear

/-- Run one public operation, keeping only the container state. -/
def applyOp {K V : Type} (hash : K → Nat) (hv : HashVec K V) : Op K V → HashVec K V
  | .insert k v => HashVec.insert hash hv k v
  | .push k v => HashVec.push hash hv (k, v)
  | .pop => (HashVec.pop hash hv).2
  | .remove k => (HashVec.remove hash hv k).2
  | .remove_entry k => (HashVec.remove_entry hash hv k).2
  | .rename o n => (HashVec.rename hash hv o n).2
  | .swap_keys a b => HashVec.swap_keys hash hv a b
  | .swap_indices i j => HashVec.swap_indices hash hv i j
  | .clear => HashVec.clear hv

/-- Run a sequence of public operations. -/
def applyOps {K V : Type} (hash : K → Nat) (hv : HashVec K V) : List (Op K V) → HashVec K V
  | [] => hv
  | op :: t => applyOps hash (applyOp hash hv op) t

/-- A step is benign unless it is a rename whose new key's digest is
already tracked for a different entry: such a rename silently overwrites a
foreign index record (the unchecked precondition of `rename`). -/
def goodStep {K V : Type} (hash : K → Nat) (hv : HashVec K V) : Op K V → Bool
  | .rename o n => (alGet hv.order (hash n)).isNone || (hash n == hash o)
  | _ => true

/-- Every step of the sequence is benign in the state where it runs. -/
def goodSeq {K V : Type} (hash : K → Nat) (hv : HashVec K V) : List (Op K V) → Bool
  | [] => true
  | op :: t => goodStep hash hv op && goodSeq hash (applyOp hash hv op) t

theorem alGet_alInsert_self (o : List (Nat × Nat)) (h v : Nat) :
    alGet (alInsert o h v) h = some v := by
  induction o with
  | nil => simp [alInsert, alGet]
  | cons e t ih =>
    obtain ⟨k, x⟩ := e
    by_cases hk : k = h
    · simp [alInsert, hk, alGet]
    · simp [alInsert, hk, alGet, ih]

theorem alGet_alInsert_ne (o : List (Nat × Nat)) (h v h' : Nat) (hne : h' ≠ h) :
    alGet (alInsert o h v) h' = alGet o h' := by
  induction o with
  | nil => simp [alInsert, alGet, Ne.symm hne]
  | cons e t ih =>
    obtain ⟨k, x⟩ := e
    by_cases hk : k = h
    · subst hk
      simp [alInsert, alGet, hne, Ne.symm hne]
    · by_cases hk' : k = h'
      · subst hk'
        simp [alInsert, hk, Ne.symm hne, alGet]
      · simp [alInsert, hk, alGet, hk', ih]

theorem alGet_alRemove_ne (o : List (Nat × Nat)) (h h' : Nat) (hne : h' ≠ h) :
    alGet (alRemove o h) h' = alGet o h' := by
  induction o with
  | nil => simp [alRemove]
  | cons e t ih =>
    obtain ⟨k, x⟩ := e
    by_cases hk : k = h
    · subst hk
      simp [alRemove, alGet, Ne.symm hne]
    · by_cases hk' : k = h'
      · subst hk'
        simp [alRemove, hk, alGet]
      · simp [alRemove, hk, alGet, hk', ih]

theorem mem_alKeys_of_alGet_isSome (o : List (Nat × Nat)) (h : Nat)
    (hs : (alGet o h).isSome) : h ∈ alKeys o := by
  induction o with
  | nil => simp [alGet] at hs
  | cons e t ih =>
    obtain ⟨k, x⟩ := e
    by_cases hk : k = h
    · simp [alKeys, hk]
    · simp [alGet, hk] at hs
      simp [alKeys] at ih ⊢
      exact Or.inr (ih hs)

theorem alGet_isSome_of_mem_alKeys (o : List (Nat × Nat)) (h : Nat)
    (hm : h ∈ alKeys o) : (alGet o h).isSome := by
  induction o with
  | nil => simp [alKeys] at hm
  | cons e t ih =>
    obtain ⟨k, x⟩ := e
    by_cases hk : k = h
    · simp [alGet, hk]
    · simp [alKeys, Ne.symm hk] at hm
      simp [alGet, hk]
      exact ih (by simpa [alKeys] using hm)

theorem alGet_eq_none_of_not_mem_alKeys (o : List (Nat × Nat)) (h : Nat)
    (hm : h ∉ alKeys o) : alGet o h = none := by
  cases hg : alGet o h with
  | none => rfl
  | some v => exact absurd (mem_alKeys_of_alGet_isSome o h (by simp [hg])) hm

theorem alGet_alRemove_self (o : List (Nat × Nat)) (h : Nat)
    (hnd : (alKeys o).Nodup) : alGet (alRemove o h) h = none := by
  induction o with
  | nil => simp [alRemove, alGet]
  | cons e t ih =>
    obtain ⟨k, x⟩ := e
    simp [alKeys] at hnd
    by_cases hk : k = h
    · subst hk
      simp [alRemove]
      exact alGet_eq_none_of_not_mem_alKeys t k (by simpa [alKeys] using hnd.1)
    · simp [alRemove, hk, alGet, hk]
      exact ih hnd.2

theorem length_alInsert_of_isSome (o : List (Nat × Nat)) (h v : Nat)
    (hs : (alGet o h).isSome) : (alInsert o h v).length = o.length := by
  induction o with
  | nil => simp [alGet] at hs
  | cons e t ih =>
    obtain ⟨k, x⟩ := e
    by_cases hk : k = h
    · simp [alInsert, hk]
    · simp [alGet, hk] at hs
      simp [alInsert, hk, ih hs]

theorem length_alInsert_of_none (o : List (Nat × Nat)) (h v : Nat)
    (hs : alGet o h = none) : (alInsert o h v).length = o.length + 1 := by
  induction o with
  | nil => simp [alInsert]
  | cons e t ih =>
    obtain ⟨k, x⟩ := e
    by_cases hk : k = h
    · simp [alGet, hk] at hs
    · simp [alGet, hk] at hs
      simp [alInsert, hk, ih hs]

theorem length_alRemove_of_isSome (o : List (Nat × Nat)) (h : Nat)
    (hs : (alGet o h).isSome) : (alRemove o h).length + 1 = o.length := by
  induction o with
  | nil => simp [alGet] at hs
  | cons e t ih =>
    obtain ⟨k, x⟩ := e
    by_cases hk : k = h
    · simp [alRemove, hk]
    · simp [alGet, hk] at hs
      simp [alRemove, hk, ih hs]

theorem length_alRemove_of_none (o : List (Nat × Nat)) (h : Nat)
    (hs : alGet o h = none) : alRemove o h = o := by
  induction o with
  | nil => simp [alRemove]
  | cons e t ih =>
    obtain ⟨k, x⟩ := e
    by_cases hk : k = h
    · simp [alGet, hk] at hs
    · simp [alGet, hk] at hs
      simp [alRemove, hk, ih hs]

theorem alKeys_alInsert_of_isSome (o : List (Nat × Nat)) (h v : Nat)
    (hs : (alGet o h).isSome) : alKeys (alInsert o h v) = alKeys o := by
  induction o with
  | nil => simp [alGet] at hs
  | cons e t ih =>
    obtain ⟨k, x⟩ := e
    by_cases hk : k = h
    · simp [alInsert, hk, alKeys]
    · simp [alGet, hk] at hs
      simp [alInsert, hk, alKeys] at ih ⊢
      exact ih hs

theorem alKeys_alInsert_of_none (o : List (Nat × Nat)) (h v : Nat)
    (hs : alGet o h = none) : alKeys (alInsert o h v) = alKeys o ++ [h] := by
  induction o with
  | nil => simp [alInsert, alKeys]
  | cons e t ih =>
    obtain ⟨k, x⟩ := e
    by_cases hk : k = h
    · simp [alGet, hk] at hs
    · simp [alGet, hk] at hs
      simp [alInsert, hk, alKeys] at ih ⊢
      exact ih hs

theorem alKeys_alRemove_sublist (o : List (Nat × Nat)) (h : Nat) :
    (alKeys (alRemove o h)).Sublist (alKeys o) := by
  induction o with
  | nil => simp [alRemove]
  | cons e t ih =>
    obtain ⟨k, x⟩ := e
    by_cases hk : k = h
    · simp [alRemove, hk, alKeys]
    · simp [alRemove, hk, alKeys]
      simpa [alKeys] using ih

theorem nodup_alKeys_alInsert (o : List (Nat × Nat)) (h v : Nat)
    (hnd : (alKeys o).Nodup) : (alKeys (alInsert o h v)).Nodup := by
  cases hs : alGet o h with
  | some w =>
    rw [alKeys_alInsert_of_isSome o h v (by simp [hs])]
    exact hnd
  | none =>
    rw [alKeys_alInsert_of_none o h v hs]
    have hm : h ∉ alKeys o := by
      intro hmem
      have := alGet_isSome_of_mem_alKeys o h hmem
      simp [hs] at this
    simp [List.nodup_append, hnd]
    exact hm

theorem nodup_alKeys_alRemove (o : List (Nat × Nat)) (h : Nat)
    (hnd : (alKeys o).Nodup) : (alKeys (alRemove o h)).Nodup :=
  (alKeys_alRemove_sublist o h).nodup hnd

/-- Replacing the record for a key with the value it already holds is the
identity on the order map. -/
theorem alInsert_alGet_eq_self (o : List (Nat × Nat)) (h v : Nat)
    (hs : alGet o h = some v) : alInsert o h v = o := by
  induction o with
  | nil => simp [alGet] at hs
  | cons e t ih =>
    obtain ⟨k, x⟩ := e
    by_cases hk : k = h
    · subst hk
      simp [alGet] at hs
      simp [alInsert, hs]
    · simp [alGet, hk] at hs
      simp [alInsert, hk, ih hs]

/-- Two consecutive inserts under the same key collapse to the outer one. -/
theorem alInsert_alInsert_self (o : List (Nat × Nat)) (h v v' : Nat) :
    alInsert (alInsert o h v) h v' = alInsert o h v' := by
  induction o with
  | nil => simp [alInsert]
  | cons e t ih =>
    obtain ⟨k, x⟩ := e
    by_cases hk : k = h
    · simp [alInsert, hk]
    · simp [alInsert, hk, ih]

/-- Inserts under distinct keys commute when the first key already has a
record (both replacements are in place). -/
theorem alInsert_comm_of_isSome (o : List (Nat × Nat)) (h v h' v' : Nat)
    (hne : h ≠ h') (hs : (alGet o h).isSome) :
    alInsert (alInsert o h v) h' v' = alInsert (alInsert o h' v') h v := by
  induction o with
  | nil => simp [alGet] at hs
  | cons e t ih =>
    obtain ⟨k, x⟩ := e
    by_cases hk : k = h
    · subst hk
      simp [alInsert, hne, Ne.symm hne]
    · by_cases hk' : k = h'
      · subst hk'
        simp [alInsert, hk, Ne.symm hne]
      · simp [alGet, hk] at hs
        simp [alInsert, hk, hk', ih hs]

section ListHelpers

variable {K V : Type} (hash : K → Nat)

theorem length_entryHashes (l : List (K × V)) :
    (entryHashes hash l).length = l.length := List.length_map l _

theorem getElem?_entryHashes (l : List (K × V)) (i : Nat) :
    (entryHashes hash l)[i]? = (l[i]?).map (fun e => hash e.1) :=
  List.getElem?_map _ l i

theorem length_setVal (l : List (K × V)) (i : Nat) (v : V) :
    (setVal l i v).length = l.length := by
  unfold setVal
  cases h : l.get? i with
  | none => rfl
  | some e => simp

theorem getElem?_setVal_self (l : List (K × V)) (i : Nat) (v : V) :
    (setVal l i v)[i]? = (l[i]?).map (fun e => (e.1, v)) := by
  unfold setVal
  rw [List.get?_eq_getElem?]
  cases h : l[i]? with
  | none => simp [h]
  | some e =>
    have hi : i < l.length := by
      by_contra hge
      rw [List.getElem?_eq_none (Nat.le_of_not_lt hge)] at h
      exact Option.noConfusion h
    simp [List.getElem?_set, hi, h]

theorem getElem?_setVal_ne (l : List (K × V)) (i : Nat) (v : V) (j : Nat)
    (hne : j ≠ i) : (setVal l i v)[j]? = l[j]? := by
  unfold setVal
  cases h : l.get? i with
  | none => rfl
  | some e => simp [List.getElem?_set, Ne.symm hne]

theorem length_setKey (l : List (K × V)) (i : Nat) (k : K) :
    (setKey l i k).length = l.length := by
  unfold setKey
  cases h : l.get? i with
  | none => rfl
  | some e => simp

theorem getElem?_setKey_self (l : List (K × V)) (i : Nat) (k : K) :
    (setKey l i k)[i]? = (l[i]?).map (fun e => (k, e.2)) := by
  unfold setKey
  rw [List.get?_eq_getElem?]
  cases h : l[i]? with
  | none => simp [h]
  | some e =>
    have hi : i < l.length := by
      by_contra hge
      rw [List.getElem?_eq_none (Nat.le_of_not_lt hge)] at h
      exact Option.noConfusion h
    simp [List.getElem?_set, hi, h]

theorem getElem?_setKey_ne (l : List (K × V)) (i : Nat) (k : K) (j : Nat)
    (hne : j ≠ i) : (setKey l i k)[j]? = l[j]? := by
  unfold setKey
  cases h : l.get? i with
  | none => rfl
  | some e => simp [List.getElem?_set, Ne.symm hne]

theorem entryHashes_setVal (l : List (K × V)) (i : Nat) (v : V) :
    entryHashes hash (setVal l i v) = entryHashes hash l := by
  apply List.ext_getElem?
  intro n
  rw [getElem?_entryHashes, getElem?_entryHashes]
  by_cases hn : n = i
  · subst hn
    rw [getElem?_setVal_self]
    cases l[n]? <;> simp
  · rw [getElem?_setVal_ne l i v n hn]

theorem entryHashes_setKey (l : List (K × V)) (i : Nat) (k : K) :
    entryHashes hash (setKey l i k) = (entryHashes hash l).set i (hash k) := by
  apply List.ext_getElem?
  intro n
  rw [getElem?_entryHashes]
  by_cases hn : n = i
  · subst hn
    rw [getElem?_setKey_self, List.getElem?_set]
    rw [length_entryHashes, getElem?_entryHashes]
    cases hg : l[n]? with
    | none =>
      have : l.length ≤ n := by
        by_contra hlt
        rw [List.getElem?_eq_getElem (Nat.lt_of_not_le hlt)] at hg
        exact Option.noConfusion hg
      simp [Nat.not_lt.mpr this]
    | some e =>
      have : n < l.length := by
        by_contra hge
        rw [List.getElem?_eq_none (Nat.le_of_not_lt hge)] at hg
        exact Option.noConfusion hg
      simp [this]
  · rw [getElem?_setKey_ne l i k n hn, List.getElem?_set_ne (Ne.symm hn),
      getElem?_entryHashes]

theorem getElem_entryHashes (l : List (K × V)) (i : Nat)
    (hi : i < (entryHashes hash l).length)
    (hi' : i < l.length) :
    (entryHashes hash l)[i] = hash ((l[i]).1) :=
  List.getElem_map _

theorem entryHashes_append (l l' : List (K × V)) :
    entryHashes hash (l ++ l') = entryHashes hash l ++ entryHashes hash l' :=
  List.map_append _ l l'

theorem entryHashes_eraseIdx (l : List (K × V)) (i : Nat) :
    entryHashes hash (l.eraseIdx i) = (entryHashes hash l).eraseIdx i := by
  unfold entryHashes
  rw [List.eraseIdx_eq_take_drop_succ, List.eraseIdx_eq_take_drop_succ,
    List.map_append, List.map_take, List.map_drop]

/-- Distinct in-bounds positions of a nodup list hold different elements. -/
theorem nodup_getElem?_ne {α : Type} {l : List α} (hnd : l.Nodup)
    {a b : Nat} (hab : a ≠ b) (ha : a < l.length) (hb : b < l.length) :
    l[a]? ≠ l[b]? := by
  rcases Nat.lt_or_ge a b with hlt | hge
  · exact List.nodup_iff_getElem?_ne_getElem?.mp hnd a b hlt hb
  · have hlt : b < a := Nat.lt_of_le_of_ne hge (Ne.symm hab)
    exact fun h => List.nodup_iff_getElem?_ne_getElem?.mp hnd b a hlt ha h.symm

theorem length_swapList {α : Type} (l : List α) (i j : Nat) :
    (swapList l i j).length = l.length := by
  unfold swapList
  cases hi : l.get? i with
  | none => rfl
  | some a =>
    cases hj : l.get? j with
    | none => rfl
    | some b => simp

theorem swapList_of_inbounds {α : Type} (l : List α) (i j : Nat)
    (hi : i < l.length) (hj : j < l.length) :
    swapList l i j = (l.set i l[j]).set j l[i] := by
  unfold swapList
  rw [List.get?_eq_getElem?, List.get?_eq_getElem?,
    List.getElem?_eq_getElem hi, List.getElem?_eq_getElem hj]

theorem getElem?_swapList {α : Type} (l : List α) (i j : Nat)
    (hi : i < l.length) (hj : j < l.length) (m : Nat) :
    (swapList l i j)[m]? =
      if m = j then l[i]? else if m = i then l[j]? else l[m]? := by
  rw [swapList_of_inbounds l i j hi hj]
  by_cases hmj : m = j
  · subst hmj
    rw [if_pos rfl, List.getElem?_set, if_pos rfl]
    simp [hj, hi, List.getElem?_eq_getElem hi]
  · rw [if_neg hmj, List.getElem?_set_ne (fun h => hmj h.symm)]
    by_cases hmi : m = i
    · subst hmi
      rw [if_pos rfl, List.getElem?_set, if_pos rfl,
        if_pos hi, List.getElem?_eq_getElem hj]
    · rw [if_neg hmi, List.getElem?_set_ne (fun h => hmi h.symm)]

theorem swapList_out_of_bounds {α : Type} (l : List α) (i j : Nat)
    (h : ¬ (i < l.length ∧ j < l.length)) : swapList l i j = l := by
  unfold swapList
  rcases Nat.lt_or_ge i l.length with hi | hi
  · have hj : l.length ≤ j := by
      rcases Nat.lt_or_ge j l.length with hj | hj
      · exact absurd ⟨hi, hj⟩ h
      · exact hj
    rw [List.get?_eq_getElem? l j, List.getElem?_eq_none hj]
    cases l.get? i <;> rfl
  · rw [List.get?_eq_getElem? l i, List.getElem?_eq_none hi]

theorem swapList_swapList {α : Type} (l : List α) (i j : Nat) :
    swapList (swapList l i j) i j = l := by
  by_cases hb : i < l.length ∧ j < l.length
  · obtain ⟨hi, hj⟩ := hb
    have hi' : i < (swapList l i j).length := by rw [length_swapList]; exact hi
    have hj' : j < (swapList l i j).length := by rw [length_swapList]; exact hj
    apply List.ext_getElem?
    intro m
    rw [getElem?_swapList _ i j hi' hj' m,
      getElem?_swapList l i j hi hj i,
      getElem?_swapList l i j hi hj j,
      getElem?_swapList l i j hi hj m]
    split_ifs <;> simp_all
  · have hb' : ¬ (i < (swapList l i j).length ∧ j < (swapList l i j).length) := by
      rw [length_swapList]
      exact hb
    rw [swapList_out_of_bounds _ i j hb', swapList_out_of_bounds l i j hb]

theorem entryHashes_swapList (l : List (K × V)) (i j : Nat) :
    entryHashes hash (swapList l i j) =
      swapList (entryHashes hash l) i j := by
  by_cases hb : i < l.length ∧ j < l.length
  · obtain ⟨hi, hj⟩ := hb
    have hi' : i < (entryHashes hash l).length := by
      rw [length_entryHashes]; exact hi
    have hj' : j < (entryHashes hash l).length := by
      rw [length_entryHashes]; exact hj
    apply List.ext_getElem?
    intro m
    rw [getElem?_entryHashes, getElem?_swapList l i j hi hj m,
      getElem?_swapList _ i j hi' hj' m,
      getElem?_entryHashes, getElem?_entryHashes, getElem?_entryHashes]
    split_ifs <;> rfl
  · have hb' : ¬ (i < (entryHashes hash l).length ∧
        j < (entryHashes hash l).length) := by
      rw [length_entryHashes]
      exact hb
    rw [swapList_out_of_bounds l i j hb, swapList_out_of_bounds _ i j hb']

theorem nodup_swapList {α : Type} {l : List α} (hnd : l.Nodup) (i j : Nat) :
    (swapList l i j).Nodup := by
  by_cases hb : i < l.length ∧ j < l.length
  · obtain ⟨hi, hj⟩ := hb
    rw [List.nodup_iff_getElem?_ne_getElem?]
    intro a b hab hbl
    rw [length_swapList] at hbl
    have hal : a < l.length := Nat.lt_trans hab hbl
    rw [getElem?_swapList l i j hi hj a, getElem?_swapList l i j hi hj b]
    have hrw : ∀ m : Nat,
        (if m = j then l[i]? else if m = i then l[j]? else l[m]?) =
          l[if m = j then i else if m = i then j else m]? := by
      intro m
      split_ifs <;> rfl
    rw [hrw a, hrw b]
    apply nodup_getElem?_ne hnd
    · split_ifs <;> omega
    · split_ifs <;> omega
    · split_ifs <;> omega
  · rw [swapList_out_of_bounds l i j hb]
    exact hnd

/-- A nodup list does not contain its `p`-th element after that element is
erased. -/
theorem not_mem_eraseIdx_self {α : Type} {l : List α} (hnd : l.Nodup)
    {p : Nat} (hp : p < l.length) : l[p] ∉ l.eraseIdx p := by
  intro hmem
  obtain ⟨m, hml, hme⟩ := List.mem_iff_getElem.mp hmem
  have hm : (l.eraseIdx p)[m]? = some l[p] := by
    rw [List.getElem?_eq_getElem hml, hme]
  rw [List.getElem?_eraseIdx] at hm
  by_cases hmp : m < p
  · rw [if_pos hmp] at hm
    exact nodup_getElem?_ne hnd (Nat.ne_of_lt hmp) (Nat.lt_trans hmp hp) hp
      (by rw [hm, List.getElem?_eq_getElem hp])
  · rw [if_neg hmp] at hm
    have hlt : m + 1 < l.length := by
      by_contra hge
      rw [List.getElem?_eq_none (Nat.le_of_not_lt hge)] at hm
      exact Option.noConfusion hm
    exact nodup_getElem?_ne hnd (by omega) hlt hp
      (by rw [hm, List.getElem?_eq_getElem hp])

end ListHelpers

section Invariant

variable {K V : Type} (hash : K → Nat)

theorem WF.lookup_get? {hv : HashVec K V} (hwf : WF hash hv) {i : Nat}
    {e : K × V} (hg : hv.entries[i]? = some e) :
    alGet hv.order (hash e.1) = some i := by
  obtain ⟨hi, he⟩ := List.getElem?_eq_some.mp hg
  have := hwf.2.2.2 i hi
  rw [he] at this
  exact this

theorem WF.hashes_perm_keys {hv : HashVec K V} (hwf : WF hash hv) :
    (entryHashes hash hv.entries).Perm (alKeys hv.order) := by
  have hsub : entryHashes hash hv.entries ⊆ alKeys hv.order := by
    intro h hm
    obtain ⟨e, hme, hhe⟩ := List.mem_map.mp hm
    obtain ⟨n, hn, hen⟩ := List.mem_iff_getElem.mp hme
    have := hwf.2.2.2 n hn
    rw [hen, hhe] at this
    exact mem_alKeys_of_alGet_isSome _ _ (by simp [this])
  have hlen : (alKeys hv.order).length ≤ (entryHashes hash hv.entries).length := by
    rw [length_entryHashes]
    unfold alKeys
    rw [List.length_map]
    exact Nat.le_of_eq hwf.2.2.1
  exact (List.subperm_of_subset hwf.2.1 hsub).perm_of_length_le hlen

theorem WF.alGet_none {hv : HashVec K V} (hwf : WF hash hv) {h : Nat}
    (hnm : h ∉ entryHashes hash hv.entries) : alGet hv.order h = none := by
  apply alGet_eq_none_of_not_mem_alKeys
  intro hmem
  exact hnm ((hwf.hashes_perm_keys hash).mem_iff.mpr hmem)

theorem WF.alGet_some {hv : HashVec K V} (hwf : WF hash hv) {h i : Nat}
    (hg : alGet hv.order h = some i) :
    ∃ hi : i < hv.entries.length, hash (hv.entries[i]).1 = h := by
  have hmemk : h ∈ alKeys hv.order :=
    mem_alKeys_of_alGet_isSome _ _ (by simp [hg])
  have hmem : h ∈ entryHashes hash hv.entries :=
    (hwf.hashes_perm_keys hash).mem_iff.mpr hmemk
  obtain ⟨e, hme, hhe⟩ := List.mem_map.mp hmem
  obtain ⟨n, hn, hen⟩ := List.mem_iff_getElem.mp hme
  have hln := hwf.2.2.2 n hn
  rw [hen, hhe, hg] at hln
  obtain rfl : i = n := Option.some.inj hln
  exact ⟨hn, by rw [hen, hhe]⟩

end Invariant

section Reindex

variable {K V : Type} (hash : K → Nat)

theorem alGet_alInsert_isSome (o : List (Nat × Nat)) (h v h' : Nat)
    (hs : (alGet o h').isSome) : (alGet (alInsert o h v) h').isSome := by
  by_cases hh : h' = h
  · subst hh
    rw [alGet_alInsert_self]
    rfl
  · rw [alGet_alInsert_ne o h v h' hh]
    exact hs

theorem entryHashes_cons (e : K × V) (t : List (K × V)) :
    entryHashes hash (e :: t) = hash e.1 :: entryHashes hash t := rfl

theorem nodup_append_singleton {α : Type} {l : List α} {a : α}
    (hnd : l.Nodup) (ha : a ∉ l) : (l ++ [a]).Nodup := by
  simp [List.nodup_append, hnd]
  exact ha

/-- A key whose digest is not among the traversed entries is untouched by
the reindexing loop. -/
theorem reindexAux_alGet_not_mem (start : Nat) (o : List (Nat × Nat))
    (t : List (K × V)) (i h : Nat) (hnm : h ∉ entryHashes hash t) :
    alGet (HashVec.reindexAux hash start o t i) h = alGet o h := by
  induction t generalizing o i with
  | nil => rfl
  | cons e t ih =>
    rw [entryHashes_cons] at hnm
    simp only [List.mem_cons, not_or] at hnm
    simp only [HashVec.reindexAux]
    rw [ih _ (i + 1) hnm.2]
    by_cases hs : start ≤ i
    · rw [if_pos hs, alGet_alInsert_ne _ _ _ _ hnm.1]
    · rw [if_neg hs]

/-- Effect of the reindexing loop on the digest of the entry at offset `j`
of the traversed suffix, the loop counter having started at `i`. -/
theorem reindexAux_alGet_mem (start : Nat) (o : List (Nat × Nat))
    (t : List (K × V)) (i j : Nat) (hj : j < t.length)
    (hnd : (entryHashes hash t).Nodup) :
    alGet (HashVec.reindexAux hash start o t i) (hash (t[j]).1) =
      if start ≤ i + j then some (i + j) else alGet o (hash (t[j]).1) := by
  induction t generalizing o i j with
  | nil => exact absurd hj (Nat.not_lt_zero j)
  | cons e t ih =>
    rw [entryHashes_cons] at hnd
    rw [List.nodup_cons] at hnd
    cases j with
    | zero =>
      simp only [List.getElem_cons_zero, Nat.add_zero]
      simp only [HashVec.reindexAux]
      rw [reindexAux_alGet_not_mem hash start _ t (i + 1) _ hnd.1]
      by_cases hs : start ≤ i
      · rw [if_pos hs, if_pos hs, alGet_alInsert_self]
      · rw [if_neg hs, if_neg hs]
    | succ j' =>
      simp only [List.getElem_cons_succ]
      have hj' : j' < t.length := by
        simp only [List.length_cons] at hj
        omega
      simp only [HashVec.reindexAux]
      rw [ih _ (i + 1) j' hj' hnd.2]
      have harith : i + 1 + j' = i + (j' + 1) := by omega
      rw [harith]
      by_cases hc : start ≤ i + (j' + 1)
      · rw [if_pos hc, if_pos hc]
      · rw [if_neg hc, if_neg hc]
        have hmem : hash (t[j']).1 ∈ entryHashes hash t :=
          List.mem_map.mpr ⟨t[j'], List.getElem_mem hj', rfl⟩
        have hne : hash (t[j']).1 ≠ hash e.1 := by
          intro hh
          exact hnd.1 (hh ▸ hmem)
        by_cases hs : start ≤ i
        · rw [if_pos hs, alGet_alInsert_ne _ _ _ _ hne]
        · rw [if_neg hs]

/-- The reindexing loop only rewrites records that already exist, so it
does not change the number of records. -/
theorem reindexAux_length (start : Nat) (o : List (Nat × Nat))
    (t : List (K × V)) (i : Nat)
    (hall : ∀ e ∈ t, (alGet o (hash e.1)).isSome) :
    (HashVec.reindexAux hash start o t i).length = o.length := by
  induction t generalizing o i with
  | nil => rfl
  | cons e t ih =>
    simp only [HashVec.reindexAux]
    by_cases hs : start ≤ i
    · rw [if_pos hs]
      have h1 : ∀ e' ∈ t, (alGet (alInsert o (hash e.1) i) (hash e'.1)).isSome :=
        fun e' he' =>
          alGet_alInsert_isSome o (hash e.1) i _
            (hall e' (List.mem_cons_of_mem e he'))
      rw [ih _ (i + 1) h1]
      exact length_alInsert_of_isSome o (hash e.1) i (hall e (List.mem_cons_self e t))
    · rw [if_neg hs]
      exact ih _ (i + 1) (fun e' he' => hall e' (List.mem_cons_of_mem e he'))

theorem reindexAux_nodup_alKeys (start : Nat) (o : List (Nat × Nat))
    (t : List (K × V)) (i : Nat) (hnd : (alKeys o).Nodup) :
    (alKeys (HashVec.reindexAux hash start o t i)).Nodup := by
  induction t generalizing o i with
  | nil => exact hnd
  | cons e t ih =>
    simp only [HashVec.reindexAux]
    apply ih
    by_cases hs : start ≤ i
    · rw [if_pos hs]
      exact nodup_alKeys_alInsert o _ i hnd
    · rw [if_neg hs]
      exact hnd

end Reindex

section Preservation

variable {K V : Type} (hash : K → Nat)

theorem wf_new : WF hash (HashVec.new : HashVec K V) := by
  refine ⟨List.nodup_nil, List.nodup_nil, rfl, ?_⟩
  intro i hi
  exact absurd hi (Nat.not_lt_zero i)

theorem wf_with_capacity (c : Nat) :
    WF hash (HashVec.with_capacity c : HashVec K V) := wf_new hash

theorem wf_clear (hv : HashVec K V) : WF hash (HashVec.clear hv) := wf_new hash

/-- `insert` when the digest is already tracked: in-place value update. -/
theorem insert_eq_hit {hv : HashVec K V} {k : K} {i : Nat}
    (hg : alGet hv.order (hash k) = some i) (v : V) :
    HashVec.insert hash hv k v = { hv with entries := setVal hv.entries i v } := by
  unfold HashVec.insert
  rw [hg]

/-- `insert` when the digest is untracked: append and record. -/
theorem insert_eq_miss {hv : HashVec K V} {k : K}
    (hg : alGet hv.order (hash k) = none) (v : V) :
    HashVec.insert hash hv k v =
      { entries := hv.entries ++ [(k, v)],
        order := alInsert hv.order (hash k) hv.entries.length } := by
  unfold HashVec.insert
  rw [hg]

theorem wf_insert {hv : HashVec K V} (hwf : WF hash hv) (k : K) (v : V) :
    WF hash (HashVec.insert hash hv k v) := by
  cases hg : alGet hv.order (hash k) with
  | some i =>
    rw [insert_eq_hit hash hg v]
    refine ⟨hwf.1, ?_, ?_, ?_⟩
    · rw [entryHashes_setVal]
      exact hwf.2.1
    · rw [length_setVal]
      exact hwf.2.2.1
    · intro m hm
      dsimp only at hm ⊢
      have hml : m < hv.entries.length := by
        rw [length_setVal] at hm
        exact hm
      have hfst : ((setVal hv.entries i v)[m]).1 = (hv.entries[m]).1 := by
        by_cases hmi : m = i
        · subst hmi
          have h1 : (setVal hv.entries m v)[m]? =
              some ((hv.entries[m]).1, v) := by
            rw [getElem?_setVal_self, List.getElem?_eq_getElem hml]
            rfl
          rw [List.getElem?_eq_getElem hm] at h1
          rw [Option.some.inj h1]
        · have h1 : (setVal hv.entries i v)[m]? = hv.entries[m]? :=
            getElem?_setVal_ne hv.entries i v m hmi
          rw [List.getElem?_eq_getElem hm,
            List.getElem?_eq_getElem hml] at h1
          rw [Option.some.inj h1]
      rw [hfst]
      exact hwf.2.2.2 m hml
  | none =>
    rw [insert_eq_miss hash hg v]
    have hnm : hash k ∉ entryHashes hash hv.entries := by
      intro hmem
      obtain ⟨e, hme, hhe⟩ := List.mem_map.mp hmem
      obtain ⟨n, hn, hen⟩ := List.mem_iff_getElem.mp hme
      have := hwf.2.2.2 n hn
      rw [hen, hhe, hg] at this
      exact Option.noConfusion this
    refine ⟨nodup_alKeys_alInsert _ _ _ hwf.1, ?_, ?_, ?_⟩
    · rw [entryHashes_append]
      exact nodup_append_singleton hwf.2.1 (by simpa [entryHashes] using hnm)
    · rw [length_alInsert_of_none _ _ _ hg, List.length_append]
      simp [hwf.2.2.1]
    · intro m hm
      simp only [List.length_append, List.length_cons, List.length_nil] at hm
      by_cases hml : m < hv.entries.length
      · have hmb : m < (hv.entries ++ [(k, v)]).length := by
          simp
          omega
        have he : (hv.entries ++ [(k, v)])[m] = hv.entries[m] := by
          have h1 : (hv.entries ++ [(k, v)])[m]? = hv.entries[m]? := by
            rw [List.getElem?_append]
            rw [if_pos hml]
          rw [List.getElem?_eq_getElem (by simp; omega),
            List.getElem?_eq_getElem hml] at h1
          exact Option.some.inj h1
        rw [he]
        have hne : hash (hv.entries[m]).1 ≠ hash k := by
          intro hh
          exact hnm (hh ▸ List.mem_map.mpr ⟨hv.entries[m], List.getElem_mem hml, rfl⟩)
        rw [alGet_alInsert_ne _ _ _ _ hne]
        exact hwf.2.2.2 m hml
      · have hmeq : m = hv.entries.length := by omega
        subst hmeq
        have hlb : hv.entries.length < (hv.entries ++ [(k, v)]).length := by
          simp
        have he : (hv.entries ++ [(k, v)])[hv.entries.length] = (k, v) := by
          have h1 : (hv.entries ++ [(k, v)])[hv.entries.length]? = some (k, v) := by
            rw [List.getElem?_append_right (Nat.le_refl _)]
            simp
          rw [List.getElem?_eq_getElem (by simp)] at h1
          exact Option.some.inj h1
        rw [he]
        exact alGet_alInsert_self hv.order (hash k) hv.entries.length

/-- `remove_entry` when the key's digest is untracked: no effect. -/
theorem remove_entry_eq_miss {hv : HashVec K V} {k : K}
    (hg : alGet hv.order (hash k) = none) :
    HashVec.remove_entry hash hv k = (none, hv) := by
  simp only [HashVec.remove_entry, hg]

/-- `remove_entry` when the key's digest maps to position `i`: shift and
reindex. -/
theorem remove_entry_eq_hit {hv : HashVec K V} {k : K} {i : Nat} {e : K × V}
    (hg : alGet hv.order (hash k) = some i) (he : hv.entries[i]? = some e) :
    HashVec.remove_entry hash hv k =
      (some e,
        ⟨hv.entries.eraseIdx i,
          HashVec.reindexAux hash i (alRemove hv.order (hash k))
            (hv.entries.eraseIdx i) 0⟩) := by
  simp only [HashVec.remove_entry, hg, List.get?_eq_getElem?, he]

/-- After a hit removal, the container is coherent again: this is the
remove-reindex correctness core. -/
theorem wf_remove_entry {hv : HashVec K V} (hwf : WF hash hv) (k : K) :
    WF hash (HashVec.remove_entry hash hv k).2 := by
  cases hg : alGet hv.order (hash k) with
  | none =>
      rw [remove_entry_eq_miss hash hg]
      exact hwf
  | some p =>
      obtain ⟨hp, hhp⟩ := hwf.alGet_some hash hg
      have he : hv.entries[p]? = some hv.entries[p] := List.getElem?_eq_getElem hp
      rw [remove_entry_eq_hit hash hg he]
      have hndEH : (entryHashes hash (hv.entries.eraseIdx p)).Nodup := by
        rw [entryHashes_eraseIdx]
        exact (List.eraseIdx_sublist _ p).nodup hwf.2.1
      have hkn : hash k ∉ entryHashes hash (hv.entries.eraseIdx p) := by
        rw [entryHashes_eraseIdx]
        have hpE : p < (entryHashes hash hv.entries).length := by
          rw [length_entryHashes]
          exact hp
        have := not_mem_eraseIdx_self hwf.2.1 hpE
        rw [getElem_entryHashes hash hv.entries p hpE hp] at this
        rw [← hhp]
        exact this
      have hallSome : ∀ e' ∈ hv.entries.eraseIdx p,
          (alGet (alRemove hv.order (hash k)) (hash e'.1)).isSome := by
        intro e' he'
        have hmem : e' ∈ hv.entries := List.mem_of_mem_eraseIdx he'
        obtain ⟨n, hn, hen⟩ := List.mem_iff_getElem.mp hmem
        have hne : hash e'.1 ≠ hash k := by
          intro hh
          apply hkn
          rw [← hh]
          exact List.mem_map.mpr ⟨e', he', rfl⟩
        rw [alGet_alRemove_ne _ _ _ hne]
        have := hwf.2.2.2 n hn
        rw [hen] at this
        simp [this]
      refine ⟨?_, hndEH, ?_, ?_⟩
      · exact reindexAux_nodup_alKeys hash p _ _ 0 (nodup_alKeys_alRemove _ _ hwf.1)
      · dsimp only
        rw [reindexAux_length hash p _ _ 0 hallSome]
        have h1 : (alRemove hv.order (hash k)).length + 1 = hv.order.length :=
          length_alRemove_of_isSome _ _ (by simp [hg])
        have h2 : (hv.entries.eraseIdx p).length + 1 = hv.entries.length :=
          List.length_eraseIdx_add_one hp
        have h3 : hv.order.length = hv.entries.length := hwf.2.2.1
        omega
      · intro j hj
        dsimp only at hj ⊢
        rw [reindexAux_alGet_mem hash p _ _ 0 j hj hndEH]
        by_cases hc : p ≤ j
        · rw [if_pos (by omega), Nat.zero_add]
        · rw [if_neg (by omega)]
          have hjp : j < p := Nat.lt_of_not_le hc
          have hjl : j < hv.entries.length := by omega
          have hjE : (hv.entries.eraseIdx p)[j]? = hv.entries[j]? := by
            rw [List.getElem?_eraseIdx, if_pos hjp]
          rw [List.getElem?_eq_getElem hj, List.getElem?_eq_getElem hjl] at hjE
          rw [Option.some.inj hjE]
          have hne : hash (hv.entries[j]).1 ≠ hash k := by
            rw [← hhp]
            intro hh
            have hEHj : (entryHashes hash hv.entries)[j]? =
                some (hash (hv.entries[j]).1) := by
              rw [getElem?_entryHashes, List.getElem?_eq_getElem hjl]
              rfl
            have hEHp : (entryHashes hash hv.entries)[p]? =
                some (hash (hv.entries[p]).1) := by
              rw [getElem?_entryHashes, List.getElem?_eq_getElem hp]
              rfl
            apply nodup_getElem?_ne hwf.2.1 (Nat.ne_of_lt hjp)
              (by rw [length_entryHashes]; exact hjl)
              (by rw [length_entryHashes]; exact hp)
            rw [hEHj, hEHp, hh]
          rw [alGet_alRemove_ne _ _ _ hne]
          exact hwf.2.2.2 j hjl

/-- After a removal the removed digest is untracked. -/
theorem remove_entry_alGet_self {hv : HashVec K V} (hwf : WF hash hv) (k : K) :
    alGet (HashVec.remove_entry hash hv k).2.order (hash k) = none := by
  cases hg : alGet hv.order (hash k) with
  | none =>
      rw [remove_entry_eq_miss hash hg]
      exact hg
  | some p =>
      obtain ⟨hp, hhp⟩ := hwf.alGet_some hash hg
      have he : hv.entries[p]? = some hv.entries[p] := List.getElem?_eq_getElem hp
      rw [remove_entry_eq_hit hash hg he]
      dsimp only
      have hkn : hash k ∉ entryHashes hash (hv.entries.eraseIdx p) := by
        rw [entryHashes_eraseIdx]
        have hpE : p < (entryHashes hash hv.entries).length := by
          rw [length_entryHashes]
          exact hp
        have := not_mem_eraseIdx_self hwf.2.1 hpE
        rw [getElem_entryHashes hash hv.entries p hpE hp] at this
        rw [← hhp]
        exact this
      rw [reindexAux_alGet_not_mem hash p _ _ 0 _ hkn]
      exact alGet_alRemove_self hv.order (hash k) hwf.1

theorem wf_remove {hv : HashVec K V} (hwf : WF hash hv) (k : K) :
    WF hash (HashVec.remove hash hv k).2 := by
  unfold HashVec.remove
  have := wf_remove_entry hash hwf k
  cases hre : HashVec.remove_entry hash hv k with
  | mk o hv' =>
      cases o with
      | none =>
          rw [hre] at this
          exact this
      | some e =>
          rw [hre] at this
          exact this

theorem remove_alGet_self {hv : HashVec K V} (hwf : WF hash hv) (k : K) :
    alGet (HashVec.remove hash hv k).2.order (hash k) = none := by
  unfold HashVec.remove
  have := remove_entry_alGet_self hash hwf k
  cases hre : HashVec.remove_entry hash hv k with
  | mk o hv' =>
      cases o with
      | none =>
          rw [hre] at this
          exact this
      | some e =>
          obtain ⟨k', v'⟩ := e
          rw [hre] at this
          exact this

/-- Setting a position of a list to the element it already holds is the
identity. -/
theorem set_getElem_self {α : Type} (l : List α) (i : Nat) (hi : i < l.length) :
    l.set i l[i] = l := by
  apply List.ext_getElem?
  intro n
  rw [List.getElem?_set]
  by_cases hn : i = n
  · subst hn
    rw [if_pos rfl, if_pos hi, List.getElem?_eq_getElem hi]
  · rw [if_neg hn]

theorem push_eq_absent {hv : HashVec K V} {entry : K × V}
    (hg : alGet hv.order (hash entry.1) = none) :
    HashVec.push hash hv entry =
      { entries := hv.entries ++ [entry],
        order := alInsert hv.order (hash entry.1) hv.entries.length } := by
  unfold HashVec.push HashVec.contains_key
  rw [hg]
  rfl

theorem push_eq_present {hv : HashVec K V} {entry : K × V}
    (hg : (alGet hv.order (hash entry.1)).isSome) :
    HashVec.push hash hv entry =
      { entries := (HashVec.remove hash hv entry.1).2.entries ++ [entry],
        order := alInsert (HashVec.remove hash hv entry.1).2.order
          (hash entry.1) (HashVec.remove hash hv entry.1).2.entries.length } := by
  unfold HashVec.push HashVec.contains_key
  rw [hg]
  rfl

theorem wf_push {hv : HashVec K V} (hwf : WF hash hv) (entry : K × V) :
    WF hash (HashVec.push hash hv entry) := by
  obtain ⟨k, v⟩ := entry
  cases hg : alGet hv.order (hash k) with
  | none =>
      rw [push_eq_absent hash hg, ← insert_eq_miss hash hg v]
      exact wf_insert hash hwf k v
  | some i =>
      rw [push_eq_present hash (by simp [hg])]
      have hwf1 := wf_remove hash hwf k
      have hg1 : alGet (HashVec.remove hash hv k).2.order (hash k) = none :=
        remove_alGet_self hash hwf k
      rw [← insert_eq_miss hash hg1 v]
      exact wf_insert hash hwf1 k v

theorem pop_eq_nil {hv : HashVec K V} (h : hv.entries = []) :
    HashVec.pop hash hv = (none, hv) := by
  unfold HashVec.pop
  rw [List.getLast?_eq_none_iff.mpr h]

theorem pop_eq_last {hv : HashVec K V} {e : K × V}
    (h : hv.entries.getLast? = some e) :
    HashVec.pop hash hv =
      (some e, ⟨hv.entries.dropLast, alRemove hv.order (hash e.1)⟩) := by
  unfold HashVec.pop
  rw [h]

theorem wf_pop {hv : HashVec K V} (hwf : WF hash hv) :
    WF hash (HashVec.pop hash hv).2 := by
  cases hl : hv.entries.getLast? with
  | none =>
      rw [pop_eq_nil hash (List.getLast?_eq_none_iff.mp hl)]
      exact hwf
  | some e =>
      rw [pop_eq_last hash hl]
      rw [List.getLast?_eq_getElem?] at hl
      have hn : 0 < hv.entries.length := by
        by_contra h0
        rw [List.getElem?_eq_none (by omega)] at hl
        exact Option.noConfusion hl
      have hlast : hv.entries.length - 1 < hv.entries.length := by omega
      have he : hv.entries[hv.entries.length - 1] = e := by
        rw [List.getElem?_eq_getElem hlast] at hl
        exact Option.some.inj hl
      have hge : alGet hv.order (hash e.1) = some (hv.entries.length - 1) := by
        have := hwf.2.2.2 (hv.entries.length - 1) hlast
        rw [he] at this
        exact this
      refine ⟨nodup_alKeys_alRemove _ _ hwf.1, ?_, ?_, ?_⟩
      · exact ((List.dropLast_sublist hv.entries).map _).nodup hwf.2.1
      · dsimp only
        have h1 : (alRemove hv.order (hash e.1)).length + 1 = hv.order.length :=
          length_alRemove_of_isSome _ _ (by simp [hge])
        have h2 : hv.order.length = hv.entries.length := hwf.2.2.1
        rw [List.length_dropLast]
        omega
      · intro j hj
        dsimp only at hj ⊢
        rw [List.length_dropLast] at hj
        have hjl : j < hv.entries.length := by omega
        have hjE : hv.entries.dropLast[j]? = hv.entries[j]? := by
          rw [List.getElem?_dropLast, if_pos hj]
        rw [List.getElem?_eq_getElem (by rw [List.length_dropLast]; omega),
          List.getElem?_eq_getElem hjl] at hjE
        rw [Option.some.inj hjE]
        have hne : hash (hv.entries[j]).1 ≠ hash e.1 := by
          rw [← he]
          intro hh
          apply nodup_getElem?_ne hwf.2.1 (a := j) (b := hv.entries.length - 1)
            (by omega) (by rw [length_entryHashes]; exact hjl)
            (by rw [length_entryHashes]; exact hlast)
          rw [getElem?_entryHashes, getElem?_entryHashes,
            List.getElem?_eq_getElem hjl, List.getElem?_eq_getElem hlast]
          simp [hh]
        rw [alGet_alRemove_ne _ _ _ hne]
        exact hwf.2.2.2 j hjl

/-- Under the invariant, entries at distinct positions have distinct
digests. -/
theorem WF.hash_ne {hv : HashVec K V} (hwf : WF hash hv) {x y : Nat}
    (hx : x < hv.entries.length) (hy : y < hv.entries.length) (hxy : x ≠ y) :
    hash (hv.entries[x]).1 ≠ hash (hv.entries[y]).1 := by
  intro hh
  apply nodup_getElem?_ne hwf.2.1 (a := x) (b := y) hxy
    (by rw [length_entryHashes]; exact hx)
    (by rw [length_entryHashes]; exact hy)
  rw [getElem?_entryHashes, getElem?_entryHashes,
    List.getElem?_eq_getElem hx, List.getElem?_eq_getElem hy]
  simp [hh]

theorem rename_eq_miss {hv : HashVec K V} {old_key : K} (new_key : K)
    (hg : alGet hv.order (hash old_key) = none) :
    HashVec.rename hash hv old_key new_key = (none, hv) := by
  simp only [HashVec.rename, hg]

theorem rename_eq_hit {hv : HashVec K V} {old_key : K} {i : Nat} (new_key : K)
    (hg : alGet hv.order (hash old_key) = some i) :
    HashVec.rename hash hv old_key new_key =
      (((setKey hv.entries i new_key).get? i).map Prod.snd,
        ⟨setKey hv.entries i new_key,
          alInsert (alRemove hv.order (hash old_key)) (hash new_key) i⟩) := by
  simp only [HashVec.rename, hg]

theorem wf_rename {hv : HashVec K V} (hwf : WF hash hv) (old_key new_key : K)
    (hcond : alGet hv.order (hash new_key) = none ∨
      hash new_key = hash old_key) :
    WF hash (HashVec.rename hash hv old_key new_key).2 := by
  cases hg : alGet hv.order (hash old_key) with
  | none =>
      rw [rename_eq_miss hash new_key hg]
      exact hwf
  | some i =>
      rw [rename_eq_hit hash new_key hg]
      obtain ⟨hi, hhi⟩ := hwf.alGet_some hash hg
      have hg2 : alGet (alRemove hv.order (hash old_key)) (hash new_key) = none := by
        cases hcond with
        | inl hnone =>
            by_cases hne : hash new_key = hash old_key
            · rw [hne]
              exact alGet_alRemove_self _ _ hwf.1
            · rw [alGet_alRemove_ne _ _ _ hne]
              exact hnone
        | inr heq =>
            rw [heq]
            exact alGet_alRemove_self _ _ hwf.1
      have hfresh : ∀ j, (hj : j < hv.entries.length) → j ≠ i →
          hash (hv.entries[j]).1 ≠ hash new_key := by
        intro j hj hji hh
        have hcl := hwf.2.2.2 j hj
        rw [hh] at hcl
        cases hcond with
        | inl hnone =>
            rw [hnone] at hcl
            exact Option.noConfusion hcl
        | inr heq =>
            rw [heq, hg] at hcl
            exact hji (Option.some.inj hcl).symm
      have hEH : ∀ m, (hm : m < hv.entries.length) →
          (entryHashes hash hv.entries)[m]? = some (hash (hv.entries[m]).1) := by
        intro m hm
        rw [getElem?_entryHashes, List.getElem?_eq_getElem hm]
        rfl
      refine ⟨?_, ?_, ?_, ?_⟩
      · exact nodup_alKeys_alInsert _ _ _ (nodup_alKeys_alRemove _ _ hwf.1)
      · dsimp only
        rw [entryHashes_setKey]
        rw [List.nodup_iff_getElem?_ne_getElem?]
        intro a b hab hbl
        rw [List.length_set, length_entryHashes] at hbl
        have hal : a < hv.entries.length := by omega
        rw [List.getElem?_set, List.getElem?_set, length_entryHashes]
        by_cases hia' : i = a
        · rw [if_pos hia', if_pos hi, if_neg (show i ≠ b by omega), hEH b hbl]
          intro hc
          exact hfresh b hbl (by omega) (Option.some.inj hc).symm
        · rw [if_neg hia']
          by_cases hib' : i = b
          · rw [if_pos hib', if_pos hi, hEH a hal]
            intro hc
            exact hfresh a hal (by omega) (Option.some.inj hc)
          · rw [if_neg hib']
            exact nodup_getElem?_ne hwf.2.1 (by omega)
              (by rw [length_entryHashes]; exact hal)
              (by rw [length_entryHashes]; exact hbl)
      · dsimp only
        have h1 : (alRemove hv.order (hash old_key)).length + 1 = hv.order.length :=
          length_alRemove_of_isSome _ _ (by simp [hg])
        have h2 : (alInsert (alRemove hv.order (hash old_key)) (hash new_key) i).length =
            (alRemove hv.order (hash old_key)).length + 1 :=
          length_alInsert_of_none _ _ _ hg2
        have h3 : hv.order.length = hv.entries.length := hwf.2.2.1
        rw [length_setKey]
        omega
      · intro j hj
        dsimp only at hj ⊢
        have hjl : j < hv.entries.length := by
          rw [length_setKey] at hj
          exact hj
        by_cases hji : j = i
        · have hkey : ((setKey hv.entries i new_key)[j]).1 = new_key := by
            have h1 : (setKey hv.entries i new_key)[j]? =
                some (new_key, (hv.entries[i]).2) := by
              rw [hji, getElem?_setKey_self, List.getElem?_eq_getElem hi]
              rfl
            rw [List.getElem?_eq_getElem hj] at h1
            rw [Option.some.inj h1]
          rw [hkey, hji]
          exact alGet_alInsert_self _ _ _
        · have hsame : ((setKey hv.entries i new_key)[j]) =
              hv.entries[j] := by
            have h1 : (setKey hv.entries i new_key)[j]? = hv.entries[j]? :=
              getElem?_setKey_ne hv.entries i new_key j hji
            rw [List.getElem?_eq_getElem hj,
              List.getElem?_eq_getElem hjl] at h1
            exact Option.some.inj h1
          rw [hsame]
          have hne_new : hash (hv.entries[j]).1 ≠ hash new_key :=
            hfresh j hjl hji
          have hne_old : hash (hv.entries[j]).1 ≠ hash old_key := by
            rw [← hhi]
            exact hwf.hash_ne hash hjl hi hji
          rw [alGet_alInsert_ne _ _ _ _ hne_new, alGet_alRemove_ne _ _ _ hne_old]
          exact hwf.2.2.2 j hjl

/-- The common body of `swap_keys` and `swap_indices` once both lookups
succeeded. -/
theorem wf_swap_core {hv : HashVec K V} (hwf : WF hash hv) {ha hb ia ib : Nat}
    (hga : alGet hv.order ha = some ia) (hgb : alGet hv.order hb = some ib) :
    WF hash (⟨swapList hv.entries ia ib,
      alInsert (alInsert hv.order ha ib) hb ia⟩ : HashVec K V) := by
  obtain ⟨hia, hha⟩ := hwf.alGet_some hash hga
  obtain ⟨hib, hhb⟩ := hwf.alGet_some hash hgb
  refine ⟨?_, ?_, ?_, ?_⟩
  · exact nodup_alKeys_alInsert _ _ _ (nodup_alKeys_alInsert _ _ _ hwf.1)
  · dsimp only
    rw [entryHashes_swapList]
    exact nodup_swapList hwf.2.1 ia ib
  · dsimp only
    rw [length_swapList]
    have h1 : (alInsert hv.order ha ib).length = hv.order.length :=
      length_alInsert_of_isSome _ _ _ (by simp [hga])
    have h2 : (alInsert (alInsert hv.order ha ib) hb ia).length =
        (alInsert hv.order ha ib).length :=
      length_alInsert_of_isSome _ _ _
        (alGet_alInsert_isSome _ _ _ _ (by simp [hgb]))
    rw [h2, h1, hwf.2.2.1]
  · intro j hj
    dsimp only at hj ⊢
    have hjl : j < hv.entries.length := by
      rw [length_swapList] at hj
      exact hj
    have hget := getElem?_swapList hv.entries ia ib hia hib j
    by_cases hjb : j = ib
    · rw [if_pos hjb] at hget
      rw [List.getElem?_eq_getElem (by rw [length_swapList]; exact hjl),
        List.getElem?_eq_getElem hia] at hget
      rw [Option.some.inj hget, hha, hjb]
      by_cases hab : hb = ha
      · have hiaib : ia = ib := by
          rw [hab, hga] at hgb
          exact Option.some.inj hgb
        rw [hab, alInsert_alInsert_self, alGet_alInsert_self, hiaib]
      · rw [alGet_alInsert_ne _ _ _ _ (fun hh => hab hh.symm),
          alGet_alInsert_self]
    · by_cases hja : j = ia
      · rw [if_neg hjb, if_pos hja] at hget
        rw [List.getElem?_eq_getElem (by rw [length_swapList]; exact hjl),
          List.getElem?_eq_getElem hib] at hget
        rw [Option.some.inj hget, hhb, hja]
        exact alGet_alInsert_self _ _ _
      · rw [if_neg hjb, if_neg hja] at hget
        rw [List.getElem?_eq_getElem (by rw [length_swapList]; exact hjl),
          List.getElem?_eq_getElem hjl] at hget
        rw [Option.some.inj hget]
        have hne_b : hash (hv.entries[j]).1 ≠ hb := by
          rw [← hhb]
          exact hwf.hash_ne hash hjl hib hjb
        have hne_a : hash (hv.entries[j]).1 ≠ ha := by
          rw [← hha]
          exact hwf.hash_ne hash hjl hia hja
        rw [alGet_alInsert_ne _ _ _ _ hne_b, alGet_alInsert_ne _ _ _ _ hne_a]
        exact hwf.2.2.2 j hjl

theorem wf_swap_keys {hv : HashVec K V} (hwf : WF hash hv) (a b : K) :
    WF hash (HashVec.swap_keys hash hv a b) := by
  unfold HashVec.swap_keys
  dsimp only
  cases hga : alGet hv.order (hash a) with
  | none => exact hwf
  | some ia =>
      cases hgb : alGet hv.order (hash b) with
      | none => exact hwf
      | some ib => exact wf_swap_core hash hwf hga hgb

theorem wf_swap_indices {hv : HashVec K V} (hwf : WF hash hv) (ia ib : Nat) :
    WF hash (HashVec.swap_indices hash hv ia ib) := by
  unfold HashVec.swap_indices
  by_cases hmax : max ia ib < hv.entries.length
  · rw [if_pos hmax]
    have hia : ia < hv.entries.length :=
      Nat.lt_of_le_of_lt (Nat.le_max_left ia ib) hmax
    have hib : ib < hv.entries.length :=
      Nat.lt_of_le_of_lt (Nat.le_max_right ia ib) hmax
    rw [List.get?_eq_getElem?, List.getElem?_eq_getElem hia,
      List.get?_eq_getElem?, List.getElem?_eq_getElem hib]
    dsimp only
    have hga := hwf.2.2.2 ia hia
    have hgb := hwf.2.2.2 ib hib
    rw [hga, hgb]
    exact wf_swap_core hash hwf hga hgb
  · rw [if_neg hmax]
    exact hwf

end Preservation

section Sequences

variable {K V : Type}

theorem wf_applyOp (hash : K → Nat) {hv : HashVec K V} (hwf : WF hash hv)
    (op : Op K V) (hgood : goodStep hash hv op = true) :
    WF hash (applyOp hash hv op) := by
  cases op with
  | insert k v => exact wf_insert hash hwf k v
  | push k v => exact wf_push hash hwf (k, v)
  | pop => exact wf_pop hash hwf
  | remove k => exact wf_remove hash hwf k
  | remove_entry k => exact wf_remove_entry hash hwf k
  | rename o n =>
      apply wf_rename hash hwf o n
      simp only [goodStep, Bool.or_eq_true, Option.isNone_iff_eq_none,
        beq_iff_eq] at hgood
      exact hgood
  | swap_keys a b => exact wf_swap_keys hash hwf a b
  | swap_indices i j => exact wf_swap_indices hash hwf i j
  | clear => exact wf_clear hash hv

theorem wf_applyOps (hash : K → Nat) {hv : HashVec K V} (hwf : WF hash hv)
    (ops : List (Op K V)) (hgood : goodSeq hash hv ops = true) :
    WF hash (applyOps hash hv ops) := by
  induction ops generalizing hv with
  | nil => exact hwf
  | cons op t ih =>
      simp only [goodSeq, Bool.and_eq_true] at hgood
      exact ih (wf_applyOp hash hwf op hgood.1) hgood.2

theorem goodSeq_append_left (hash : K → Nat) {hv : HashVec K V}
    (p q : List (Op K V)) (hgood : goodSeq hash hv (p ++ q) = true) :
    goodSeq hash hv p = true := by
  induction p generalizing hv with
  | nil => rfl
  | cons op t ih =>
      simp only [List.cons_append, goodSeq, Bool.and_eq_true] at hgood ⊢
      exact ⟨hgood.1, ih hgood.2⟩

end Sequences

section Claims

/-- C1, counterexample: the invariant claim fails as stated. From an empty
container over `Nat` keys with the identity digest, `insert 0`, `insert 1`,
then `rename 0 1` (renaming onto a key another entry already holds) leaves
the key index with one record for two entries, so `index.len() ==
entries.len()` is violated after a sequence of public operations. -/
theorem C1_counterexample :
    ¬ ((applyOps (fun n => n) HashVec.new
          [Op.insert 0 0, Op.insert 1 1, Op.rename 0 1]).order.length =
        (applyOps (fun n => n) HashVec.new
          [Op.insert 0 0, Op.insert 1 1, Op.rename 0 1]).entries.length ∧
       ∀ i, (hi : i < (applyOps (fun n => n) HashVec.new
          [Op.insert 0 0, Op.insert 1 1, Op.rename 0 1]).entries.length) →
        alGet (applyOps (fun n => n) HashVec.new
            [Op.insert 0 0, Op.insert 1 1, Op.rename 0 1]).order
          ((fun n => n) (((applyOps (fun n => n) HashVec.new
            [Op.insert 0 0, Op.insert 1 1, Op.rename 0 1]).entries[i]).1)) =
          some i) := by
  decide

/-- C1 (amended): for every sequence of public operations from an empty
container in which no `rename` is applied with a new key whose digest is
already tracked for a different entry, after each prefix the key index
holds exactly one record per entry (`index.len() == entries.len()`) and the
record for the digest of the entry at position `i` maps to `i`. -/
theorem C1_invariant_good_sequences {K V : Type} (hash : K → Nat)
    (p q : List (Op K V))
    (hgood : goodSeq hash HashVec.new (p ++ q) = true) :
    (applyOps hash HashVec.new p).order.length =
        (applyOps hash HashVec.new p).entries.length ∧
    ∀ i, (hi : i < (applyOps hash HashVec.new p).entries.length) →
      alGet (applyOps hash HashVec.new p).order
        (hash (((applyOps hash HashVec.new p).entries[i]).1)) = some i := by
  have hwf := wf_applyOps hash (wf_new hash) p
    (goodSeq_append_left hash p q hgood)
  exact ⟨hwf.2.2.1, hwf.2.2.2⟩

/-- C1, witness: a concrete benign sequence exercising insert, push,
remove, swap and rename, with the invariant checked after the prefix. -/
theorem C1_witness :
    goodSeq (fun n => n) HashVec.new
        ([Op.insert 0 5, Op.push 1 6, Op.remove 0, Op.insert 2 7,
          Op.swap_indices 0 1, Op.rename 2 3, Op.pop] ++ []) = true ∧
    ((applyOps (fun n => n) HashVec.new
        [Op.insert 0 5, Op.push 1 6, Op.remove 0, Op.insert 2 7,
          Op.swap_indices 0 1, Op.rename 2 3, Op.pop]).order.length =
      (applyOps (fun n => n) HashVec.new
        [Op.insert 0 5, Op.push 1 6, Op.remove 0, Op.insert 2 7,
          Op.swap_indices 0 1, Op.rename 2 3, Op.pop]).entries.length ∧
    ∀ i, (hi : i < (applyOps (fun n => n) HashVec.new
        [Op.insert 0 5, Op.push 1 6, Op.remove 0, Op.insert 2 7,
          Op.swap_indices 0 1, Op.rename 2 3, Op.pop]).entries.length) →
      alGet (applyOps (fun n => n) HashVec.new
          [Op.insert 0 5, Op.push 1 6, Op.remove 0, Op.insert 2 7,
            Op.swap_indices 0 1, Op.rename 2 3, Op.pop]).order
        ((fun n => n) (((applyOps (fun n => n) HashVec.new
          [Op.insert 0 5, Op.push 1 6, Op.remove 0, Op.insert 2 7,
            Op.swap_indices 0 1, Op.rename 2 3, Op.pop]).entries[i]).1)) =
        some i) :=
  ⟨by decide,
    C1_invariant_good_sequences (fun n => n)
      [Op.insert 0 5, Op.push 1 6, Op.remove 0, Op.insert 2 7,
        Op.swap_indices 0 1, Op.rename 2 3, Op.pop] [] (by decide)⟩

/-- C2 (code bug): `contains_key` consults only the key's digest, so with
two distinct keys of equal digest (legal for the `Hash` contract, and
unavoidable for key types with more values than 64-bit digests), it
answers `true` for a key that is not in the container: here the container
holds only key `0` yet `contains_key 1` is `true` under a constant digest
function. -/
theorem C2_contains_key_collision :
    HashVec.contains_key (fun _ => 0)
        (HashVec.insert (fun _ => 0) HashVec.new 0 99) 1 = true ∧
    ∀ e ∈ (HashVec.insert (fun _ => 0) (HashVec.new : HashVec Nat Nat) 0 99).entries,
      e.1 ≠ 1 := by
  decide

/-- C8: positional access (`Index<usize>`) returns the stored pair when the
position is in bounds; out of bounds is the panic branch, modelled as
`none`, and it is unreachable whenever `i < len`. -/
theorem C8_positional_access {K V : Type} (hv : HashVec K V) (i : Nat) :
    (∀ (hi : i < hv.entries.length),
      HashVec.atIdx hv i = some (hv.entries[i])) ∧
    (hv.entries.length ≤ i → HashVec.atIdx hv i = none) := by
  constructor
  · intro hi
    unfold HashVec.atIdx
    rw [List.get?_eq_getElem?]
    exact List.getElem?_eq_getElem hi
  · intro hge
    unfold HashVec.atIdx
    rw [List.get?_eq_getElem?]
    exact List.getElem?_eq_none hge

/-- C8, witness: in a two-entry container, position 1 is readable and
position 5 is the failure branch. -/
theorem C8_positional_access_witness :
    HashVec.atIdx (⟨[(0, 1), (2, 3)], [(0, 0), (2, 1)]⟩ : HashVec Nat Nat) 1 =
        some (2, 3) ∧
    HashVec.atIdx (⟨[(0, 1), (2, 3)], [(0, 0), (2, 1)]⟩ : HashVec Nat Nat) 5 =
        none :=
  ⟨(C8_positional_access ⟨[(0, 1), (2, 3)], [(0, 0), (2, 1)]⟩ 1).1 (by decide),
    (C8_positional_access ⟨[(0, 1), (2, 3)], [(0, 0), (2, 1)]⟩ 5).2 (by decide)⟩

/-- C10: `pop` on an empty container returns `none` and changes nothing; on
a container of length `n > 0` it returns the entry at position `n - 1`, the
remaining entries are exactly the first `n - 1`, and the order map is the
old one with precisely the popped key's record erased — no reindexing, no
other modification. -/
theorem C10_pop_semantics {K V : Type} (hash : K → Nat) (hv : HashVec K V) :
    (hv.entries = [] → HashVec.pop hash hv = (none, hv)) ∧
    (∀ (hn : 0 < hv.entries.length),
      (HashVec.pop hash hv).1 =
          some (hv.entries[hv.entries.length - 1]) ∧
      (HashVec.pop hash hv).2.entries =
          hv.entries.take (hv.entries.length - 1) ∧
      (HashVec.pop hash hv).2.order =
          alRemove hv.order
            (hash ((hv.entries[hv.entries.length - 1]).1))) := by
  constructor
  · intro hnil
    exact pop_eq_nil hash hnil
  · intro hn
    have hlast : hv.entries.length - 1 < hv.entries.length := by omega
    have hl : hv.entries.getLast? = some (hv.entries[hv.entries.length - 1]) := by
      rw [List.getLast?_eq_getElem?]
      exact List.getElem?_eq_getElem hlast
    rw [pop_eq_last hash hl]
    refine ⟨rfl, ?_, rfl⟩
    exact List.dropLast_eq_take hv.entries

/-- C10, witness: popping `[(7, 1), (8, 2)]` yields `(8, 2)`, keeps the
first entry and erases only the record for digest `8`; popping the empty
container is the identity. -/
theorem C10_pop_semantics_witness :
    HashVec.pop (fun n => n) (⟨[], []⟩ : HashVec Nat Nat) =
        (none, ⟨[], []⟩) ∧
    (HashVec.pop (fun n => n)
        (⟨[(7, 1), (8, 2)], [(7, 0), (8, 1)]⟩ : HashVec Nat Nat)).1 =
        some (8, 2) ∧
    (HashVec.pop (fun n => n)
        (⟨[(7, 1), (8, 2)], [(7, 0), (8, 1)]⟩ : HashVec Nat Nat)).2.entries =
        [(7, 1), (8, 2)].take 1 ∧
    (HashVec.pop (fun n => n)
        (⟨[(7, 1), (8, 2)], [(7, 0), (8, 1)]⟩ : HashVec Nat Nat)).2.order =
        alRemove [(7, 0), (8, 1)] 8 :=
  ⟨(C10_pop_semantics (fun n => n) ⟨[], []⟩).1 rfl,
    (C10_pop_semantics (fun n => n) ⟨[(7, 1), (8, 2)], [(7, 0), (8, 1)]⟩).2
      (by decide)⟩

/-- C4: `insert` with a key equal to a stored key overwrites only that
entry's value in place — same position, same length, same order map, the
other entries untouched — and a subsequent `get` returns the new value; with
a fresh key (digests injective) it appends at position `len` and records
that position. -/
theorem C4_insert_upsert {K V : Type} (hash : K → Nat) (hv : HashVec K V)
    (hwf : WF hash hv) (hinj : Function.Injective hash) (k : K) (v : V) :
    (∀ p, (hp : p < hv.entries.length) → (hv.entries[p]).1 = k →
      (HashVec.insert hash hv k v).entries = hv.entries.set p (k, v) ∧
      (HashVec.insert hash hv k v).order = hv.order ∧
      (HashVec.insert hash hv k v).entries.length = hv.entries.length ∧
      HashVec.index hash (HashVec.insert hash hv k v) k = some p ∧
      HashVec.get hash (HashVec.insert hash hv k v) k = some v) ∧
    ((∀ e ∈ hv.entries, e.1 ≠ k) →
      (HashVec.insert hash hv k v).entries = hv.entries ++ [(k, v)] ∧
      HashVec.index hash (HashVec.insert hash hv k v) k =
        some hv.entries.length ∧
      HashVec.get hash (HashVec.insert hash hv k v) k = some v) := by
  constructor
  · intro p hp hk
    have hg : alGet hv.order (hash k) = some p := by
      have := hwf.2.2.2 p hp
      rw [hk] at this
      exact this
    rw [insert_eq_hit hash hg v]
    have hset : setVal hv.entries p v = hv.entries.set p (k, v) := by
      unfold setVal
      rw [List.get?_eq_getElem?, List.getElem?_eq_getElem hp]
      show hv.entries.set p ((hv.entries[p]).1, v) = hv.entries.set p (k, v)
      rw [hk]
    refine ⟨hset, rfl, ?_, ?_, ?_⟩
    · dsimp only
      rw [hset, List.length_set]
    · unfold HashVec.index
      exact hg
    · unfold HashVec.get
      dsimp only
      rw [hg, hset]
      show Option.map Prod.snd ((hv.entries.set p (k, v)).get? p) = some v
      rw [List.get?_eq_getElem?, List.getElem?_set, if_pos rfl, if_pos hp]
      rfl
  · intro habs
    have hnm : hash k ∉ entryHashes hash hv.entries := by
      intro hmem
      obtain ⟨e, hme, hhe⟩ := List.mem_map.mp hmem
      exact habs e hme (hinj hhe)
    have hg : alGet hv.order (hash k) = none := hwf.alGet_none hash hnm
    rw [insert_eq_miss hash hg v]
    refine ⟨rfl, ?_, ?_⟩
    · unfold HashVec.index
      exact alGet_alInsert_self _ _ _
    · unfold HashVec.get
      dsimp only
      rw [alGet_alInsert_self]
      show Option.map Prod.snd
          ((hv.entries ++ [(k, v)]).get? hv.entries.length) = some v
      rw [List.get?_eq_getElem?, List.getElem?_append_right (Nat.le_refl _)]
      simp

/-- C4, witness: inserting key 1 twice into a two-entry container keeps
length and position and updates the value; inserting fresh key 2 appends. -/
theorem C4_insert_upsert_witness :
    (HashVec.insert (fun n => n)
        (⟨[(0, 5), (1, 6)], [(0, 0), (1, 1)]⟩ : HashVec Nat Nat) 1 9).entries =
        [(0, 5), (1, 6)].set 1 (1, 9) ∧
    HashVec.index (fun n => n)
        (HashVec.insert (fun n => n)
          (⟨[(0, 5), (1, 6)], [(0, 0), (1, 1)]⟩ : HashVec Nat Nat) 1 9) 1 =
        some 1 ∧
    HashVec.get (fun n => n)
        (HashVec.insert (fun n => n)
          (⟨[(0, 5), (1, 6)], [(0, 0), (1, 1)]⟩ : HashVec Nat Nat) 1 9) 1 =
        some 9 ∧
    (HashVec.insert (fun n => n)
        (⟨[(0, 5), (1, 6)], [(0, 0), (1, 1)]⟩ : HashVec Nat Nat) 2 7).entries =
        [(0, 5), (1, 6)] ++ [(2, 7)] := by
  have hwf : WF (fun n => n)
      (⟨[(0, 5), (1, 6)], [(0, 0), (1, 1)]⟩ : HashVec Nat Nat) :=
    ⟨by decide, by decide, by decide, by decide⟩
  have hmain := C4_insert_upsert (fun n => n)
    ⟨[(0, 5), (1, 6)], [(0, 0), (1, 1)]⟩ hwf (fun a b h => h) 1 9
  have hmain2 := C4_insert_upsert (fun n => n)
    ⟨[(0, 5), (1, 6)], [(0, 0), (1, 1)]⟩ hwf (fun a b h => h) 2 7
  obtain ⟨h1, _, _, h2, h3⟩ := hmain.1 1 (by decide) (by decide)
  obtain ⟨h4, _, _⟩ := hmain2.2 (by decide)
  exact ⟨h1, h2, h3, h4⟩

/-- C3: removing the key stored at position `p` returns the stored pair and
shifts every entry that was at a position `> p` down by one, each still
retrievable by its key at the new position; removing an absent key (digests
injective) returns `none` and changes nothing; `remove` equals
`remove_entry` with only the value kept. -/
theorem C3_remove_entry_correct {K V : Type} (hash : K → Nat)
    (hv : HashVec K V) (hwf : WF hash hv) (hinj : Function.Injective hash)
    (k : K) :
    (∀ p, (hp : p < hv.entries.length) → (hv.entries[p]).1 = k →
      (HashVec.remove_entry hash hv k).1 = some hv.entries[p] ∧
      (HashVec.remove_entry hash hv k).2.entries = hv.entries.eraseIdx p ∧
      (∀ j, (hj : j < hv.entries.length) → p < j →
        (HashVec.remove_entry hash hv k).2.entries[j - 1]? =
            hv.entries[j]? ∧
        HashVec.index hash (HashVec.remove_entry hash hv k).2
            ((hv.entries[j]).1) = some (j - 1) ∧
        HashVec.get hash (HashVec.remove_entry hash hv k).2
            ((hv.entries[j]).1) = some ((hv.entries[j]).2))) ∧
    ((∀ e ∈ hv.entries, e.1 ≠ k) →
      HashVec.remove_entry hash hv k = (none, hv)) ∧
    HashVec.remove hash hv k =
      ((HashVec.remove_entry hash hv k).1.map Prod.snd,
        (HashVec.remove_entry hash hv k).2) := by
  refine ⟨?_, ?_, ?_⟩
  · intro p hp hk
    have hg : alGet hv.order (hash k) = some p := by
      have := hwf.2.2.2 p hp
      rw [hk] at this
      exact this
    have he : hv.entries[p]? = some hv.entries[p] := List.getElem?_eq_getElem hp
    have hwf2 := wf_remove_entry hash hwf k
    rw [remove_entry_eq_hit hash hg he] at hwf2 ⊢
    have hlen' : (hv.entries.eraseIdx p).length = hv.entries.length - 1 := by
      rw [List.length_eraseIdx, if_pos hp]
    refine ⟨rfl, rfl, ?_⟩
    intro j hj hpj
    have harith : j - 1 + 1 = j := by omega
    have hshift : (hv.entries.eraseIdx p)[j - 1]? = hv.entries[j]? := by
      rw [List.getElem?_eraseIdx, if_neg (by omega), harith]
    have hj1 : j - 1 < (hv.entries.eraseIdx p).length := by omega
    have hjl : j < hv.entries.length := hj
    have hgetj : (hv.entries.eraseIdx p)[j - 1] = hv.entries[j] := by
      rw [List.getElem?_eq_getElem hj1, List.getElem?_eq_getElem hjl] at hshift
      exact Option.some.inj hshift
    have hidx : alGet (HashVec.reindexAux hash p
          (alRemove hv.order (hash k)) (hv.entries.eraseIdx p) 0)
          (hash ((hv.entries[j]).1)) = some (j - 1) := by
      have := hwf2.2.2.2 (j - 1) hj1
      rw [hgetj] at this
      exact this
    refine ⟨hshift, hidx, ?_⟩
    unfold HashVec.get
    dsimp only
    rw [hidx]
    show Option.map Prod.snd ((hv.entries.eraseIdx p).get? (j - 1)) =
      some ((hv.entries[j]).2)
    rw [List.get?_eq_getElem?, hshift, List.getElem?_eq_getElem hjl]
    rfl
  · intro habs
    have hnm : hash k ∉ entryHashes hash hv.entries := by
      intro hmem
      obtain ⟨e, hme, hhe⟩ := List.mem_map.mp hmem
      exact habs e hme (hinj hhe)
    exact remove_entry_eq_miss hash (hwf.alGet_none hash hnm)
  · unfold HashVec.remove
    cases hre : HashVec.remove_entry hash hv k with
    | mk o s =>
        cases o with
        | none => rfl
        | some e =>
            obtain ⟨k', v'⟩ := e
            rfl

/-- C3, witness: removing key 0 from a three-entry container returns
`(0, 5)`, shifts `(1, 6)` and `(2, 7)` down, and both stay retrievable at
their new positions. -/
theorem C3_remove_entry_correct_witness :
    ((HashVec.remove_entry (fun n => n)
        (⟨[(0, 5), (1, 6), (2, 7)], [(0, 0), (1, 1), (2, 2)]⟩ :
          HashVec Nat Nat) 0).1 = some (0, 5) ∧
      (HashVec.remove_entry (fun n => n)
        (⟨[(0, 5), (1, 6), (2, 7)], [(0, 0), (1, 1), (2, 2)]⟩ :
          HashVec Nat Nat) 0).2.entries =
        [(0, 5), (1, 6), (2, 7)].eraseIdx 0) ∧
    HashVec.index (fun n => n)
        (HashVec.remove_entry (fun n => n)
          (⟨[(0, 5), (1, 6), (2, 7)], [(0, 0), (1, 1), (2, 2)]⟩ :
            HashVec Nat Nat) 0).2 2 = some 1 ∧
    HashVec.get (fun n => n)
        (HashVec.remove_entry (fun n => n)
          (⟨[(0, 5), (1, 6), (2, 7)], [(0, 0), (1, 1), (2, 2)]⟩ :
            HashVec Nat Nat) 0).2 2 = some 7 := by
  have hwf : WF (fun n => n)
      (⟨[(0, 5), (1, 6), (2, 7)], [(0, 0), (1, 1), (2, 2)]⟩ :
        HashVec Nat Nat) :=
    ⟨by decide, by decide, by decide, by decide⟩
  have hmain := C3_remove_entry_correct (fun n => n)
    ⟨[(0, 5), (1, 6), (2, 7)], [(0, 0), (1, 1), (2, 2)]⟩ hwf
    (fun a b h => h) 0
  obtain ⟨h1, h2, h3⟩ := hmain.1 0 (by decide) (by decide)
  obtain ⟨_, h4, h5⟩ := h3 2 (by decide) (by decide)
  exact ⟨⟨h1, h2⟩, h4, h5⟩

/-- C5: `push (k, v)` when key `k` is stored at position `p` first removes
that entry (with `remove`'s shifting) and then appends `(k, v)`: afterwards
the entries are the old ones minus position `p` plus `(k, v)` at the end,
the length is unchanged, `k`'s record points at the final position, and the
prior position `p` holds the entry that followed it; with a fresh key
(digests injective) it appends. -/
theorem C5_push_moves_to_tail {K V : Type} (hash : K → Nat)
    (hv : HashVec K V) (hwf : WF hash hv) (hinj : Function.Injective hash)
    (k : K) (v : V) :
    (∀ p, (hp : p < hv.entries.length) → (hv.entries[p]).1 = k →
      (HashVec.push hash hv (k, v)).entries =
          hv.entries.eraseIdx p ++ [(k, v)] ∧
      (HashVec.push hash hv (k, v)).entries.length = hv.entries.length ∧
      HashVec.index hash (HashVec.push hash hv (k, v)) k =
          some (hv.entries.length - 1) ∧
      (HashVec.push hash hv (k, v)).entries[hv.entries.length - 1]? =
          some (k, v) ∧
      (p + 1 < hv.entries.length →
        (HashVec.push hash hv (k, v)).entries[p]? = hv.entries[p + 1]?)) ∧
    ((∀ e ∈ hv.entries, e.1 ≠ k) →
      (HashVec.push hash hv (k, v)).entries = hv.entries ++ [(k, v)]) := by
  constructor
  · intro p hp hk
    have hg : alGet hv.order (hash k) = some p := by
      have := hwf.2.2.2 p hp
      rw [hk] at this
      exact this
    have he : hv.entries[p]? = some hv.entries[p] := List.getElem?_eq_getElem hp
    have hrm : (HashVec.remove hash hv k).2.entries = hv.entries.eraseIdx p := by
      unfold HashVec.remove
      rw [remove_entry_eq_hit hash hg he]
    have hlen' : (hv.entries.eraseIdx p).length = hv.entries.length - 1 := by
      rw [List.length_eraseIdx, if_pos hp]
    rw [push_eq_present hash (by simp [hg])]
    dsimp only
    rw [hrm]
    have hn1 : 0 < hv.entries.length := by omega
    refine ⟨rfl, ?_, ?_, ?_, ?_⟩
    · rw [List.length_append, hlen']
      simp
      omega
    · unfold HashVec.index
      dsimp only
      rw [hlen', alGet_alInsert_self]
    · rw [List.getElem?_append_right (by omega), hlen']
      simp
    · intro hp1
      rw [List.getElem?_append, if_pos (by omega), List.getElem?_eraseIdx,
        if_neg (by omega)]
  · intro habs
    have hnm : hash k ∉ entryHashes hash hv.entries := by
      intro hmem
      obtain ⟨e, hme, hhe⟩ := List.mem_map.mp hmem
      exact habs e hme (hinj hhe)
    rw [push_eq_absent hash (hwf.alGet_none hash hnm)]

/-- C5, witness: pushing existing key 0 in a three-entry container moves it
to the final position and shifts `(1, 6)` into position 0. -/
theorem C5_push_moves_to_tail_witness :
    (HashVec.push (fun n => n)
        (⟨[(0, 5), (1, 6), (2, 7)], [(0, 0), (1, 1), (2, 2)]⟩ :
          HashVec Nat Nat) (0, 9)).entries =
        [(0, 5), (1, 6), (2, 7)].eraseIdx 0 ++ [(0, 9)] ∧
    HashVec.index (fun n => n)
        (HashVec.push (fun n => n)
          (⟨[(0, 5), (1, 6), (2, 7)], [(0, 0), (1, 1), (2, 2)]⟩ :
            HashVec Nat Nat) (0, 9)) 0 = some 2 ∧
    (HashVec.push (fun n => n)
        (⟨[(0, 5), (1, 6), (2, 7)], [(0, 0), (1, 1), (2, 2)]⟩ :
          HashVec Nat Nat) (0, 9)).entries[0]? = some (1, 6) := by
  have hwf : WF (fun n => n)
      (⟨[(0, 5), (1, 6), (2, 7)], [(0, 0), (1, 1), (2, 2)]⟩ :
        HashVec Nat Nat) :=
    ⟨by decide, by decide, by decide, by decide⟩
  have hmain := C5_push_moves_to_tail (fun n => n)
    ⟨[(0, 5), (1, 6), (2, 7)], [(0, 0), (1, 1), (2, 2)]⟩ hwf
    (fun a b h => h) 0 9
  obtain ⟨h1, _, h2, _, h3⟩ := hmain.1 0 (by decide) (by decide)
  refine ⟨h1, h2, ?_⟩
  rw [h3 (by decide)]
  rfl

/-- C6, counterexample: the claim fails as stated when `new_key` equals
`old_key`: with entry `(0, 5)` stored, `rename 0 0` replaces the key by
itself and re-records its digest, so `get 0` afterwards is `some 5`, not
absent as the claim requires of `get(old_key)`. -/
theorem C6_counterexample :
    ¬ (HashVec.get (fun n => n)
        (HashVec.rename (fun n => n)
          (HashVec.insert (fun n => n) (HashVec.new : HashVec Nat Nat) 0 5)
          0 0).2 0 = none) := by
  decide

/-- C6 (amended): for `new_key ≠ old_key` (digests injective), renaming the
entry stored at position `p` with value `v` replaces its key in place and
returns `v`; afterwards `get old_key` is absent, `get new_key` returns `v`
and `index new_key` is `p`; renaming an absent key returns `none` and
changes nothing. -/
theorem C6_rename_in_place {K V : Type} (hash : K → Nat) (hv : HashVec K V)
    (hwf : WF hash hv) (hinj : Function.Injective hash)
    (old_key new_key : K) (hne : new_key ≠ old_key) :
    (∀ p, (hp : p < hv.entries.length) → (hv.entries[p]).1 = old_key →
      (HashVec.rename hash hv old_key new_key).1 =
          some ((hv.entries[p]).2) ∧
      (HashVec.rename hash hv old_key new_key).2.entries =
          hv.entries.set p (new_key, (hv.entries[p]).2) ∧
      HashVec.get hash (HashVec.rename hash hv old_key new_key).2 old_key =
          none ∧
      HashVec.get hash (HashVec.rename hash hv old_key new_key).2 new_key =
          some ((hv.entries[p]).2) ∧
      HashVec.index hash (HashVec.rename hash hv old_key new_key).2 new_key =
          some p) ∧
    ((∀ e ∈ hv.entries, e.1 ≠ old_key) →
      HashVec.rename hash hv old_key new_key = (none, hv)) := by
  have hneh : hash new_key ≠ hash old_key := fun hh => hne (hinj hh)
  constructor
  · intro p hp hk
    have hg : alGet hv.order (hash old_key) = some p := by
      have := hwf.2.2.2 p hp
      rw [hk] at this
      exact this
    rw [rename_eq_hit hash new_key hg]
    have hsetk : setKey hv.entries p new_key =
        hv.entries.set p (new_key, (hv.entries[p]).2) := by
      unfold setKey
      rw [List.get?_eq_getElem?, List.getElem?_eq_getElem hp]
    have hget? : (setKey hv.entries p new_key).get? p =
        some (new_key, (hv.entries[p]).2) := by
      rw [hsetk, List.get?_eq_getElem?, List.getElem?_set, if_pos rfl,
        if_pos hp]
    refine ⟨?_, hsetk, ?_, ?_, ?_⟩
    · rw [hget?]
      rfl
    · unfold HashVec.get
      dsimp only
      rw [alGet_alInsert_ne _ _ _ _ (fun hh => hneh hh.symm),
        alGet_alRemove_self _ _ hwf.1]
    · unfold HashVec.get
      dsimp only
      rw [alGet_alInsert_self]
      show Option.map Prod.snd ((setKey hv.entries p new_key).get? p) =
        some ((hv.entries[p]).2)
      rw [hget?]
      rfl
    · unfold HashVec.index
      dsimp only
      exact alGet_alInsert_self _ _ _
  · intro habs
    have hnm : hash old_key ∉ entryHashes hash hv.entries := by
      intro hmem
      obtain ⟨e, hme, hhe⟩ := List.mem_map.mp hmem
      exact habs e hme (hinj hhe)
    exact rename_eq_miss hash new_key (hwf.alGet_none hash hnm)

/-- C6, witness: renaming key 1 to fresh key 9 in a two-entry container
keeps position 1 and the stored value, makes the old key unreachable. -/
theorem C6_rename_in_place_witness :
    (HashVec.rename (fun n => n)
        (⟨[(0, 5), (1, 6)], [(0, 0), (1, 1)]⟩ : HashVec Nat Nat) 1 9).1 =
        some 6 ∧
    HashVec.get (fun n => n)
        (HashVec.rename (fun n => n)
          (⟨[(0, 5), (1, 6)], [(0, 0), (1, 1)]⟩ : HashVec Nat Nat) 1 9).2 1 =
        none ∧
    HashVec.get (fun n => n)
        (HashVec.rename (fun n => n)
          (⟨[(0, 5), (1, 6)], [(0, 0), (1, 1)]⟩ : HashVec Nat Nat) 1 9).2 9 =
        some 6 ∧
    HashVec.index (fun n => n)
        (HashVec.rename (fun n => n)
          (⟨[(0, 5), (1, 6)], [(0, 0), (1, 1)]⟩ : HashVec Nat Nat) 1 9).2 9 =
        some 1 := by
  have hwf : WF (fun n => n)
      (⟨[(0, 5), (1, 6)], [(0, 0), (1, 1)]⟩ : HashVec Nat Nat) :=
    ⟨by decide, by decide, by decide, by decide⟩
  have hmain := C6_rename_in_place (fun n => n)
    ⟨[(0, 5), (1, 6)], [(0, 0), (1, 1)]⟩ hwf (fun a b h => h) 1 9
    (by decide)
  obtain ⟨h1, _, h2, h3, h4⟩ := hmain.1 1 (by decide) (by decide)
  exact ⟨h1, h2, h3, h4⟩

/-- Draining the iterator from cursor `i` yields exactly the entries from
position `i` on. -/
theorem drain_eq_drop {K V : Type} (hv : HashVec K V) (i : Nat) :
    HashVecIter.drain ⟨hv, i⟩ = hv.entries.drop i := by
  have hgen : ∀ n (hv : HashVec K V) (i : Nat), hv.entries.length - i ≤ n →
      HashVecIter.drain ⟨hv, i⟩ = hv.entries.drop i := by
    intro n
    induction n with
    | zero =>
        intro hv i hle
        unfold HashVecIter.drain
        split
        · rename_i e heq
          rw [List.get?_eq_getElem?,
            List.getElem?_eq_none (by omega : hv.entries.length ≤ i)] at heq
          exact Option.noConfusion heq
        · rw [List.drop_eq_nil_of_le (by omega)]
    | succ n ih =>
        intro hv i hle
        unfold HashVecIter.drain
        split
        · rename_i e heq
          have hi : i < hv.entries.length := by
            by_contra hge
            rw [List.get?_eq_getElem?,
              List.getElem?_eq_none (Nat.le_of_not_lt hge)] at heq
            exact Option.noConfusion heq
          rw [ih hv (i + 1) (by omega)]
          rw [List.get?_eq_getElem?, List.getElem?_eq_getElem hi] at heq
          rw [List.drop_eq_getElem_cons hi, Option.some.inj heq]
        · rename_i heq
          rw [List.drop_eq_nil_of_le (List.get?_eq_none.mp heq)]
  exact hgen (hv.entries.length - i) hv i (Nat.le_refl _)

/-- Inserting a run of keys that are fresh for the container (pairwise
distinct, digests injective) appends them in order. -/
theorem foldl_insert_entries {K V : Type} (hash : K → Nat)
    (hinj : Function.Injective hash) (ks : List (K × V)) (hv : HashVec K V)
    (hwf : WF hash hv)
    (hdisj : ∀ e ∈ ks, ∀ e' ∈ hv.entries, e'.1 ≠ e.1)
    (hnd : (ks.map Prod.fst).Nodup) :
    (List.foldl (fun acc e => HashVec.insert hash acc e.1 e.2) hv ks).entries =
      hv.entries ++ ks := by
  induction ks generalizing hv with
  | nil => simp
  | cons e t ih =>
      simp only [List.foldl_cons]
      have hnm : hash e.1 ∉ entryHashes hash hv.entries := by
        intro hmem
        obtain ⟨e', hme', hhe'⟩ := List.mem_map.mp hmem
        exact hdisj e (List.mem_cons_self e t) e' hme' (hinj hhe')
      have hg : alGet hv.order (hash e.1) = none := hwf.alGet_none hash hnm
      have hwf' := wf_insert hash hwf e.1 e.2
      rw [insert_eq_miss hash hg e.2] at hwf' ⊢
      have hdisj' : ∀ f ∈ t, ∀ e' ∈ hv.entries ++ [e], e'.1 ≠ f.1 := by
        intro f hf e' he'
        rcases List.mem_append.mp he' with hl | hr
        · exact hdisj f (List.mem_cons_of_mem e hf) e' hl
        · have he'e : e' = e := by simpa using hr
          subst he'e
          rw [List.map_cons, List.nodup_cons] at hnd
          intro hk
          exact hnd.1 (hk ▸ List.mem_map.mpr ⟨f, hf, rfl⟩)
      rw [List.map_cons, List.nodup_cons] at hnd
      rw [ih _ hwf' hdisj' hnd.2, List.append_assoc]
      rfl

/-- C9: inserting `n` pairwise-distinct keys into an empty container
(digests injective) stores exactly those pairs in insertion order, draining
the iterator yields them in that order, and the iterator's `next` never
changes the underlying container. -/
theorem C9_round_trip {K V : Type} (hash : K → Nat)
    (hinj : Function.Injective hash) (ks : List (K × V))
    (hnd : (ks.map Prod.fst).Nodup) :
    (List.foldl (fun acc e => HashVec.insert hash acc e.1 e.2)
        HashVec.new ks).entries = ks ∧
    HashVecIter.drain (HashVecIter.intoIter
        (List.foldl (fun acc e => HashVec.insert hash acc e.1 e.2)
          HashVec.new ks)) = ks ∧
    ∀ it : HashVecIter K V,
      (HashVecIter.next it).2.ordered_map = it.ordered_map := by
  have hentries := foldl_insert_entries hash hinj ks HashVec.new
    (wf_new hash)
    (by
      intro e he e' he'
      simp [HashVec.new] at he')
    hnd
  have hks : (List.foldl (fun acc e => HashVec.insert hash acc e.1 e.2)
      HashVec.new ks).entries = ks := by
    rw [hentries]
    rfl
  refine ⟨hks, ?_, fun it => rfl⟩
  unfold HashVecIter.intoIter
  rw [drain_eq_drop, hks]
  exact List.drop_zero ks

/-- C9, witness: three distinct keys round-trip through insert and
iteration. -/
theorem C9_round_trip_witness :
    (List.foldl (fun acc e => HashVec.insert (fun n => n) acc e.1 e.2)
        HashVec.new [(3, 30), (1, 31), (2, 32)]).entries =
        [(3, 30), (1, 31), (2, 32)] ∧
    HashVecIter.drain (HashVecIter.intoIter
        (List.foldl (fun acc e => HashVec.insert (fun n => n) acc e.1 e.2)
          HashVec.new [(3, 30), (1, 31), (2, 32)])) =
        [(3, 30), (1, 31), (2, 32)] ∧
    ∀ it : HashVecIter Nat Nat,
      (HashVecIter.next it).2.ordered_map = it.ordered_map :=
  C9_round_trip (fun n => n) (fun a b h => h)
    [(3, 30), (1, 31), (2, 32)] (by decide)

theorem swapList_self {α : Type} (l : List α) (i : Nat) :
    swapList l i i = l := by
  unfold swapList
  cases h : l.get? i with
  | none => rfl
  | some a =>
      show (l.set i a).set i a = l
      have hi : i < l.length := by
        by_contra hge
        rw [List.get?_eq_getElem?,
          List.getElem?_eq_none (Nat.le_of_not_lt hge)] at h
        exact Option.noConfusion h
      have ha : a = l[i] := by
        rw [List.get?_eq_getElem?, List.getElem?_eq_getElem hi] at h
        exact (Option.some.inj h).symm
      rw [List.set_set, ha]
      exact set_getElem_self l i hi

theorem swapList_comm {α : Type} (l : List α) (i j : Nat) :
    swapList l i j = swapList l j i := by
  by_cases hb : i < l.length ∧ j < l.length
  · obtain ⟨hi, hj⟩ := hb
    apply List.ext_getElem?
    intro m
    rw [getElem?_swapList l i j hi hj m, getElem?_swapList l j i hj hi m]
    by_cases hmj : m = j
    · by_cases hmi : m = i
      · have hij : i = j := by omega
        rw [if_pos hmj, if_pos hmi, hij]
      · rw [if_pos hmj, if_neg hmi, if_pos hmj]
    · by_cases hmi : m = i
      · rw [if_neg hmj, if_pos hmi, if_pos hmi]
      · rw [if_neg hmj, if_neg hmi, if_neg hmi, if_neg hmj]
  · have hb' : ¬ (j < l.length ∧ i < l.length) := fun hc => hb ⟨hc.2, hc.1⟩
    rw [swapList_out_of_bounds l i j hb, swapList_out_of_bounds l j i hb']

theorem swap_keys_eq_hit {K V : Type} (hash : K → Nat)
    {hv : HashVec K V} {a b : K} {ia ib : Nat}
    (hga : alGet hv.order (hash a) = some ia)
    (hgb : alGet hv.order (hash b) = some ib) :
    HashVec.swap_keys hash hv a b =
      ⟨swapList hv.entries ia ib,
        alInsert (alInsert hv.order (hash a) ib) (hash b) ia⟩ := by
  unfold HashVec.swap_keys
  dsimp only
  rw [hga, hgb]

theorem swap_keys_eq_miss {K V : Type} (hash : K → Nat)
    {hv : HashVec K V} {a b : K}
    (h : alGet hv.order (hash a) = none ∨ alGet hv.order (hash b) = none) :
    HashVec.swap_keys hash hv a b = hv := by
  unfold HashVec.swap_keys
  dsimp only
  cases hga : alGet hv.order (hash a) with
  | none => rfl
  | some ia =>
      cases hgb : alGet hv.order (hash b) with
      | none => rfl
      | some ib =>
          rcases h with h | h
          · rw [hga] at h
            exact Option.noConfusion h
          · rw [hgb] at h
            exact Option.noConfusion h

theorem swap_indices_eq_guard_fail {K V : Type} (hash : K → Nat)
    {hv : HashVec K V} {ia ib : Nat}
    (h : ¬ max ia ib < hv.entries.length) :
    HashVec.swap_indices hash hv ia ib = hv := by
  unfold HashVec.swap_indices
  rw [if_neg h]

theorem swap_indices_eq_hit {K V : Type} (hash : K → Nat)
    {hv : HashVec K V} {ia ib : Nat}
    (hmax : max ia ib < hv.entries.length)
    (hia : ia < hv.entries.length) (hib : ib < hv.entries.length)
    {oa ob : Nat}
    (hga : alGet hv.order (hash ((hv.entries[ia]).1)) = some oa)
    (hgb : alGet hv.order (hash ((hv.entries[ib]).1)) = some ob) :
    HashVec.swap_indices hash hv ia ib =
      ⟨swapList hv.entries oa ob,
        alInsert (alInsert hv.order (hash ((hv.entries[ia]).1)) ob)
          (hash ((hv.entries[ib]).1)) oa⟩ := by
  unfold HashVec.swap_indices
  rw [if_pos hmax, List.get?_eq_getElem?, List.getElem?_eq_getElem hia,
    List.get?_eq_getElem?, List.getElem?_eq_getElem hib]
  dsimp only
  rw [hga, hgb]

/-- C7: on a coherent container, `swap_keys a b` twice restores the
original state, and `swap_indices i j` twice restores the original state —
both when the swap takes effect and when it is a no-op. -/
theorem C7_swap_involutive {K V : Type} (hash : K → Nat) (hv : HashVec K V)
    (hwf : WF hash hv) (a b : K) (i j : Nat) :
    HashVec.swap_keys hash (HashVec.swap_keys hash hv a b) a b = hv ∧
    HashVec.swap_indices hash (HashVec.swap_indices hash hv i j) i j = hv := by
  constructor
  · cases hga : alGet hv.order (hash a) with
    | none =>
        rw [swap_keys_eq_miss hash (Or.inl hga), swap_keys_eq_miss hash (Or.inl hga)]
    | some ia =>
        cases hgb : alGet hv.order (hash b) with
        | none =>
            rw [swap_keys_eq_miss hash (Or.inr hgb),
              swap_keys_eq_miss hash (Or.inr hgb)]
        | some ib =>
            by_cases hab : hash b = hash a
            · have hiaib : ia = ib := by
                rw [hab, hga] at hgb
                exact Option.some.inj hgb
              have hfirst : HashVec.swap_keys hash hv a b = hv := by
                rw [swap_keys_eq_hit hash hga hgb, hab, ← hiaib, swapList_self,
                  alInsert_alInsert_self, alInsert_alGet_eq_self _ _ _ hga]
              rw [hfirst, hfirst]
            · have h1 : (alGet (alInsert hv.order (hash a) ib) (hash b)).isSome := by
                rw [alGet_alInsert_ne _ _ _ _ hab]
                simp [hgb]
              have hO1a : alGet (alInsert (alInsert hv.order (hash a) ib)
                  (hash b) ia) (hash a) = some ib := by
                rw [alGet_alInsert_ne _ _ _ _ (fun hh => hab hh.symm),
                  alGet_alInsert_self]
              have hO1b : alGet (alInsert (alInsert hv.order (hash a) ib)
                  (hash b) ia) (hash b) = some ia :=
                alGet_alInsert_self _ _ _
              rw [swap_keys_eq_hit hash hga hgb,
                swap_keys_eq_hit hash hO1a hO1b]
              rw [swapList_comm _ ib ia, swapList_swapList]
              rw [alInsert_comm_of_isSome _ _ _ _ _ hab h1,
                alInsert_alInsert_self hv.order (hash a) ib ia,
                alInsert_alGet_eq_self _ _ _ hga,
                alInsert_alInsert_self hv.order (hash b) ia ib,
                alInsert_alGet_eq_self _ _ _ hgb]
  · by_cases hmax : max i j < hv.entries.length
    · have hi : i < hv.entries.length :=
        Nat.lt_of_le_of_lt (Nat.le_max_left i j) hmax
      have hj : j < hv.entries.length :=
        Nat.lt_of_le_of_lt (Nat.le_max_right i j) hmax
      have hga := hwf.2.2.2 i hi
      have hgb := hwf.2.2.2 j hj
      by_cases hij : i = j
      · subst hij
        have hfirst : HashVec.swap_indices hash hv i i = hv := by
          rw [swap_indices_eq_hit hash hmax hi hi hga hga, swapList_self,
            alInsert_alInsert_self, alInsert_alGet_eq_self _ _ _ hga]
        rw [hfirst, hfirst]
      · have hane : hash ((hv.entries[i]).1) ≠ hash ((hv.entries[j]).1) :=
          hwf.hash_ne hash hi hj hij
        rw [swap_indices_eq_hit hash hmax hi hj hga hgb]
        have hlen1 : (swapList hv.entries i j).length = hv.entries.length :=
          length_swapList hv.entries i j
        have hmax' : max i j < (swapList hv.entries i j).length := by
          rw [hlen1]
          exact hmax
        have hi' : i < (swapList hv.entries i j).length := by
          rw [hlen1]
          exact hi
        have hj' : j < (swapList hv.entries i j).length := by
          rw [hlen1]
          exact hj
        have heq_i : (swapList hv.entries i j)[i] = hv.entries[j] := by
          have h0 := getElem?_swapList hv.entries i j hi hj i
          rw [if_neg hij, if_pos rfl, List.getElem?_eq_getElem hi',
            List.getElem?_eq_getElem hj] at h0
          exact Option.some.inj h0
        have heq_j : (swapList hv.entries i j)[j] = hv.entries[i] := by
          have h0 := getElem?_swapList hv.entries i j hi hj j
          rw [if_pos rfl, List.getElem?_eq_getElem hj',
            List.getElem?_eq_getElem hi] at h0
          exact Option.some.inj h0
        have h1 : (alGet (alInsert hv.order (hash ((hv.entries[i]).1)) j)
            (hash ((hv.entries[j]).1))).isSome := by
          rw [alGet_alInsert_ne _ _ _ _ (fun hh => hane hh.symm)]
          simp [hgb]
        have hga2 : alGet (alInsert (alInsert hv.order
              (hash ((hv.entries[i]).1)) j) (hash ((hv.entries[j]).1)) i)
            (hash (((swapList hv.entries i j)[i]).1)) = some i := by
          rw [heq_i]
          exact alGet_alInsert_self _ _ _
        have hgb2 : alGet (alInsert (alInsert hv.order
              (hash ((hv.entries[i]).1)) j) (hash ((hv.entries[j]).1)) i)
            (hash (((swapList hv.entries i j)[j]).1)) = some j := by
          rw [heq_j, alGet_alInsert_ne _ _ _ _ hane, alGet_alInsert_self]
        rw [swap_indices_eq_hit hash hmax' hi' hj' hga2 hgb2]
        rw [swapList_swapList]
        rw [heq_i, heq_j]
        rw [alInsert_alInsert_self,
          alInsert_comm_of_isSome _ _ _ _ _ (fun hh => hane hh.symm) h1,
          alInsert_alInsert_self, alInsert_alGet_eq_self _ _ _ hga,
          alInsert_alGet_eq_self _ _ _ hgb]
    · rw [swap_indices_eq_guard_fail hash hmax,
        swap_indices_eq_guard_fail hash hmax]

/-- C7, witness: in a concrete three-entry container, swapping keys 0 and 2
twice, and swapping positions 0 and 1 twice, both restore the container. -/
theorem C7_swap_involutive_witness :
    HashVec.swap_keys (fun n => n)
        (HashVec.swap_keys (fun n => n)
          (⟨[(0, 5), (1, 6), (2, 7)], [(0, 0), (1, 1), (2, 2)]⟩ :
            HashVec Nat Nat) 0 2) 0 2 =
      ⟨[(0, 5), (1, 6), (2, 7)], [(0, 0), (1, 1), (2, 2)]⟩ ∧
    HashVec.swap_indices (fun n => n)
        (HashVec.swap_indices (fun n => n)
          (⟨[(0, 5), (1, 6), (2, 7)], [(0, 0), (1, 1), (2, 2)]⟩ :
            HashVec Nat Nat) 0 1) 0 1 =
      ⟨[(0, 5), (1, 6), (2, 7)], [(0, 0), (1, 1), (2, 2)]⟩ :=
  C7_swap_involutive (fun n => n)
    ⟨[(0, 5), (1, 6), (2, 7)], [(0, 0), (1, 1), (2, 2)]⟩
    ⟨by decide, by decide, by decide, by decide⟩ 0 2 0 1

end Claims

end HashVecSpec
